import Mathlib

/-!
Verification of the kindspells/astro-shield core: the CSP directive builder
(`src/@kindspells/astro-shield/src/state.mts`), the Vercel config adapter
(`vercel.mts`), the Netlify headers adapter (`netlify.mts`), and the markup
scanner / hash-persistence logic (`state.mjs`).

JavaScript strings are modelled as `List Char` (abbreviated `Str`) so that
line splitting, substring search/replacement and lexicographic comparison can
be defined and reasoned about directly.  JS objects and `Map`s are modelled as
insertion-ordered association lists; JS `Set`s as duplicate-free lists in
insertion order.  The SHA-256 primitive (`node:crypto`) and file/network I/O
are external to the repository and are passed in as function parameters.
-/

namespace AstroShield

/-- JS strings as lists of characters. -/
abbrev Str := List Char

/-- JS string comparison `a < b`: lexicographic on code units. -/
def strLtB : Str → Str → Bool
  | [], [] => false
  | [], _ :: _ => true
  | _ :: _, [] => false
  | a :: as, b :: bs =>
    if a.toNat < b.toNat then true
    else if b.toNat < a.toNat then false
    else strLtB as bs

/-- `a <= b` on JS strings. -/
def strLeB (a b : Str) : Bool := !(strLtB b a)

/-- Insert `x` in front of the first element `y` with `le x y`.  Used to model
JS `Array.prototype.sort`, which is a stable sort. -/
def insertLe (le : α → α → Bool) (x : α) : List α → List α
  | [] => [x]
  | y :: ys => if le x y then x :: y :: ys else y :: insertLe le x ys

/-- Stable sort by a boolean `le` (models JS `Array.prototype.sort` for
consistent comparators). -/
def jsSortBy (le : α → α → Bool) (l : List α) : List α :=
  l.foldr (insertLe le) []

/-- `beginsWith pre s`: `s` starts with `pre`. -/
def beginsWith : Str → Str → Bool
  | [], _ => true
  | _ :: _, [] => false
  | p :: ps, c :: cs => p == c && beginsWith ps cs

/-- `endsWithStr suf s`: `s` ends with `suf`. -/
def endsWithStr (suf s : Str) : Bool := beginsWith suf.reverse s.reverse

/-- JS `s.replace(pat, repl)` for a *string* pattern `pat ≠ ""`: replaces the
first occurrence of `pat` (no change when `pat` does not occur). -/
def replaceFirstAux (pat repl : Str) : Str → Str
  | [] => []
  | c :: cs =>
    if beginsWith pat (c :: cs) then repl ++ (c :: cs).drop pat.length
    else c :: replaceFirstAux pat repl cs

/-- JS `s.replace(pat, repl)` for a string pattern (`pat = ""` prepends). -/
def replaceFirst (s pat repl : Str) : Str :=
  match pat with
  | [] => repl ++ s
  | _ :: _ => replaceFirstAux pat repl s

/-- `s.split(sep)` for a single separator character. -/
def splitOnChar (sep : Char) : Str → List Str
  | [] => [[]]
  | c :: cs =>
    if c = sep then [] :: splitOnChar sep cs
    else
      match splitOnChar sep cs with
      | [] => [[c]]
      | l :: ls => (c :: l) :: ls

/-- The characters matched by the JS regex class `\s` (also the set trimmed
by `String.prototype.trim`): space, `\t\n\v\f\r`, NBSP, U+1680,
U+2000-U+200A, U+2028, U+2029, U+202F, U+205F, U+3000 and the BOM. -/
def isSpaceJS (c : Char) : Bool :=
  c.toNat = 32 || c.toNat = 9 || c.toNat = 10 || c.toNat = 13 || c.toNat = 11 ||
    c.toNat = 12 || c.toNat = 160 || c.toNat = 5760 ||
    (8192 ≤ c.toNat && c.toNat ≤ 8202) || c.toNat = 8232 || c.toNat = 8233 ||
    c.toNat = 8239 || c.toNat = 8287 || c.toNat = 12288 || c.toNat = 65279

/-- JS regex `.` without the `s` flag: any character except a line terminator
(`\n`, `\r`, U+2028, U+2029).  A `.*$` tail (no `m` flag) therefore matches
the rest of a string exactly when it contains no line terminator. -/
def isRegexDot (c : Char) : Bool :=
  !(c.toNat = 10 || c.toNat = 13 || c.toNat = 8232 || c.toNat = 8233)

/-- No line terminator in `s` (what `.*$` requires). -/
def noTerm (s : Str) : Bool := s.all isRegexDot

/-- JS `String.prototype.trim`. -/
def trimJS (s : Str) : Str :=
  ((s.dropWhile isSpaceJS).reverse.dropWhile isSpaceJS).reverse

/-- `s.split(/\s+/)`: maximal whitespace runs are separators; a leading or
trailing run produces an empty fragment, as in JS.  The flag records whether
the previous character belonged to a separator run. -/
def splitWsAux : Bool → Str → List Str
  | _, [] => [[]]
  | inWs, c :: cs =>
    if isSpaceJS c then
      if inWs then splitWsAux true cs else [] :: splitWsAux true cs
    else
      match splitWsAux false cs with
      | [] => [[c]]
      | l :: ls => (c :: l) :: ls

def splitWsRuns (s : Str) : List Str := splitWsAux false s

/-- `s.split(/;\s*/)`: each separator is a `;` together with the whitespace
directly following it. -/
def splitSemiWsAux : Bool → Str → List Str
  | _, [] => [[]]
  | afterSemi, c :: cs =>
    if c = ';' then [] :: splitSemiWsAux true cs
    else if afterSemi && isSpaceJS c then splitSemiWsAux true cs
    else
      match splitSemiWsAux false cs with
      | [] => [[c]]
      | l :: ls => (c :: l) :: ls

def splitSemiWs (s : Str) : List Str := splitSemiWsAux false s

/-- `s.split(marker)` for a non-empty string marker, with fuel (one unit per
consumed character suffices). -/
def splitOnSubstrAux (pat : Str) : Nat → Str → List Str
  | 0, s => [s]
  | _ + 1, [] => [[]]
  | f + 1, c :: cs =>
    if beginsWith pat (c :: cs) then
      [] :: splitOnSubstrAux pat f ((c :: cs).drop pat.length)
    else
      match splitOnSubstrAux pat f cs with
      | [] => [[c]]
      | l :: ls => (c :: l) :: ls

def splitOnSubstr (pat s : Str) : List Str :=
  match pat with
  | [] => [s]
  | _ :: _ => splitOnSubstrAux pat (s.length + 1) s

/-- Replace the first maximal whitespace run of `s` by `marker` (the JS hack
`directive.replace(/\s+/, '||||||')`). -/
def replaceFirstWsRun (marker : Str) : Str → Str
  | [] => []
  | c :: cs =>
    if isSpaceJS c then marker ++ cs.dropWhile isSpaceJS
    else c :: replaceFirstWsRun marker cs

/-- Association-list lookup (JS `obj[k]` / `map.get(k)`). -/
def assocLookup (m : List (Str × α)) (k : Str) : Option α :=
  match m with
  | [] => none
  | (k2, v) :: rest => if k2 = k then some v else assocLookup rest k

/-- JS `obj[k] = v` / `map.set(k, v)`: replace in place, else append. -/
def assocSet (m : List (Str × α)) (k : Str) (v : α) : List (Str × α) :=
  match m with
  | [] => [(k, v)]
  | (k2, v2) :: rest =>
    if k2 = k then (k2, v) :: rest else (k2, v2) :: assocSet rest k v

/-- JS `new Set(list)`: duplicate-free, first occurrences kept in order. -/
def dedupFirstAux [DecidableEq α] (seen : List α) : List α → List α
  | [] => []
  | x :: xs =>
    if x ∈ seen then dedupFirstAux seen xs else x :: dedupFirstAux (x :: seen) xs

def jsSetFromList [DecidableEq α] (l : List α) : List α := dedupFirstAux [] l

/-- JS `set.add(x)`. -/
def jsSetAdd [DecidableEq α] (s : List α) (x : α) : List α :=
  if x ∈ s then s else s ++ [x]

/-- `list.join(sep)`. -/
def joinWithSep (sep : Str) : List Str → Str
  | [] => []
  | [x] => x
  | x :: xs => x ++ sep ++ joinWithSep sep xs

/-! ## CSP directive builder (`state.mts`, `serialiseHashes` … `patchHeaders`) -/

/-- The per-page hash sets (`PerPageHashes` in `types.mts`): JS `Set`s in
insertion order. -/
structure PerPageHashes where
  scripts : List Str
  styles : List Str
deriving DecidableEq

/-- `CSPDirectives`: a JS object, i.e. an insertion-ordered association list
from directive name to value. -/
abbrev CSPDirectives := List (Str × Str)

/-- `'${h}'` -/
def quoteHash (h : Str) : Str := '\'' :: h ++ ['\'']

/-- `serialiseHashes` (state.mts:44): sorted, quoted, joined by a space. -/
def serialiseHashes (hashes : List Str) : Str :=
  joinWithSep [' '] ((jsSortBy strLeB hashes).map quoteHash)

/-- `serializeCspDirectiveSources` (state.mts:50): sorted, joined by a space. -/
def serializeCspDirectiveSources (hashes : List Str) : Str :=
  joinWithSep [' '] (jsSortBy strLeB hashes)

/-- JS compares `[k, v]` pairs under default `sort()` via their string form
`k + ',' + v`. -/
def pairSortKey (p : Str × Str) : Str := p.1 ++ ',' :: p.2

/-- `serialiseCspDirectives` (state.mts:53): entries sorted (JS default pair
comparison), rendered `name value`, joined by `"; "`. -/
def serialiseCspDirectives (directives : CSPDirectives) : Str :=
  joinWithSep ("; ".data)
    ((jsSortBy (fun a b => strLeB (pairSortKey a) (pairSortKey b)) directives).map
      (fun p => p.1 ++ ' ' :: p.2))

/-- `setSrcDirective` (state.mts:59).  The JS mutates `directives`; the
embedding returns the updated object. -/
def setSrcDirective (directives : CSPDirectives) (srcType : Str)
    (hashes : List Str) : CSPDirectives :=
  let base := (assocLookup directives srcType).getD []
  if base ≠ [] then
    let s0 := jsSetFromList (splitWsRuns base)
    let s1 := hashes.foldl (fun s h => jsSetAdd s (quoteHash h)) s0
    assocSet directives srcType (serializeCspDirectiveSources s1)
  else
    assocSet directives srcType ("'self' ".data ++ serialiseHashes hashes)

/-- `Object.fromEntries`: later duplicates override, first position kept. -/
def jsObjectFromEntries (l : List (Str × Str)) : List (Str × Str) :=
  l.foldl (fun acc p => assocSet acc p.1 p.2) []

def markerSixPipes : Str := "||||||".data

/-- `parseCspDirectives` (state.mts:79): split on `/;\s*/`, drop empty parts,
split each directive at its first whitespace run (via the `'||||||'` marker
hack of the source). -/
def parseCspDirectives (cspHeader : Str) : CSPDirectives :=
  if cspHeader = [] then []
  else
    jsObjectFromEntries
      (((splitSemiWs cspHeader).filter (fun v => v ≠ [])).map
        (fun directive =>
          let ps := splitOnSubstr markerSixPipes
            (replaceFirstWsRun markerSixPipes directive)
          (ps.headD [], (ps.drop 1).headD [])))

structure CSPOptions where
  cspDirectives : Option CSPDirectives := none
deriving DecidableEq

structure SecurityHeadersOptions where
  contentSecurityPolicy : Option CSPOptions := none
deriving DecidableEq

def cspHeaderName : Str := "content-security-policy".data
def scriptSrcName : Str := "script-src".data
def styleSrcName : Str := "style-src".data
def noneSourceVal : Str := "'none'".data

/-- JS object spread `{...a, ...b}`. -/
def jsObjectMerge (a b : List (Str × Str)) : List (Str × Str) :=
  (a ++ b).foldl (fun acc p => assocSet acc p.1 p.2) []

/-- The directives value `patchCspHeader` (state.mts:99) computes before
serialising: configured defaults overridden by an existing header, then the
freshly computed `script-src`/`style-src` (`'none'` for an empty category). -/
def patchedCspDirectives (plainHeaders : List (Str × Str))
    (pageHashes : PerPageHashes) (cspOpts : CSPOptions) : CSPDirectives :=
  let d0 :=
    match assocLookup plainHeaders cspHeaderName with
    | some v => jsObjectMerge (cspOpts.cspDirectives.getD []) (parseCspDirectives v)
    | none => cspOpts.cspDirectives.getD []
  let d1 :=
    if pageHashes.scripts ≠ [] then setSrcDirective d0 scriptSrcName pageHashes.scripts
    else assocSet d0 scriptSrcName noneSourceVal
  if pageHashes.styles ≠ [] then setSrcDirective d1 styleSrcName pageHashes.styles
  else assocSet d1 styleSrcName noneSourceVal

/-- `patchCspHeader` (state.mts:99).  The JS mutates `plainHeaders`; the
embedding returns the updated header object. -/
def patchCspHeader (plainHeaders : List (Str × Str)) (pageHashes : PerPageHashes)
    (cspOpts : CSPOptions) : List (Str × Str) :=
  let directives := patchedCspDirectives plainHeaders pageHashes cspOpts
  if directives.length > 0 then
    assocSet plainHeaders cspHeaderName (serialiseCspDirectives directives)
  else plainHeaders

/-- `patchHeaders` (state.mts:128).  `Headers` are modelled as the association
list of header-name/value pairs (unique, lower-cased names). -/
def patchHeaders (headers : List (Str × Str)) (pageHashes : PerPageHashes)
    (securityHeadersOpts : SecurityHeadersOptions) : List (Str × Str) :=
  match securityHeadersOpts.contentSecurityPolicy with
  | some cspOpts => patchCspHeader headers pageHashes cspOpts
  | none => headers

/-! ## Vercel adapter (`vercel.mts`) -/

structure VercelRoute where
  src : Str
  headers : List (Str × Str) := []
  status : Option Nat := none
  routeContinue : Option Bool := none
deriving DecidableEq

structure VercelConfig where
  version : Nat
  routes : Option (List VercelRoute) := none
deriving DecidableEq

/-- `mergeVercelConfig` (vercel.mts:114):
`{ ...base, routes: [...(base.routes ?? []), ...(patch.routes ?? [])] }`. -/
def mergeVercelConfig (base patch : VercelConfig) : VercelConfig :=
  { base with routes := some ((base.routes.getD []) ++ (patch.routes.getD [])) }

inductive TrailingSlash
  | always
  | never
  | ignore
deriving DecidableEq

/-- JS `page.slice(0, -k)`. -/
def jsSliceToNeg (s : Str) (k : Nat) : Str := s.take (s.length - k)

/-- The JS default sort of `[page, hashesObject]` pairs compares the strings
`page + ',[object Object]'`. -/
def pagesSortLe (a b : Str × PerPageHashes) : Bool :=
  strLeB (a.1 ++ ",[object Object]".data) (b.1 ++ ",[object Object]".data)

/-- One iteration of the route-building loop of `buildVercelConfig`
(vercel.mts:81-109).  When `cspDirectives` was configured, the same JS object
is mutated across iterations; the embedding threads it as `shared`. -/
def buildVercelRouteStep (cspOpt : Option CSPOptions)
    (state : Option CSPDirectives × List VercelRoute) (pg : Str × PerPageHashes) :
    Option CSPDirectives × List VercelRoute :=
  let (shared, routes) := state
  match cspOpt with
  | none => (shared, routes)
  | some _ =>
    let d0 := shared.getD []
    let d1 :=
      if pg.2.scripts ≠ [] then setSrcDirective d0 scriptSrcName pg.2.scripts
      else assocSet d0 scriptSrcName noneSourceVal
    let d2 :=
      if pg.2.styles ≠ [] then setSrcDirective d1 styleSrcName pg.2.styles
      else assocSet d1 styleSrcName noneSourceVal
    let shared2 := shared.map (fun _ => d2)
    if d2.length = 0 then (shared2, routes)
    else
      (shared2,
        routes ++ [{ src := '/' :: pg.1,
                     headers := [(cspHeaderName, serialiseCspDirectives d2)] }])

/-- `buildVercelConfig` (vercel.mts:56). -/
def buildVercelConfig (trailingSlash : TrailingSlash)
    (securityHeadersOptions : SecurityHeadersOptions)
    (perPageSriHashes : List (Str × PerPageHashes)) : VercelConfig :=
  let indexSlashOffset : Option Nat :=
    match trailingSlash with
    | .never => some 11
    | .always => some 10
    | .ignore => none
  let pagesToIterate := perPageSriHashes.foldl
    (fun acc pg =>
      let acc :=
        if indexSlashOffset.isSome &&
            (pg.1 = "index.html".data || endsWithStr "/index.html".data pg.1) then
          acc ++ [(jsSliceToNeg pg.1 (indexSlashOffset.getD 0), pg.2)]
        else acc
      acc ++ [pg]) []
  let pages := jsSortBy pagesSortLe pagesToIterate
  let cspOpt := securityHeadersOptions.contentSecurityPolicy
  let initShared : Option CSPDirectives :=
    match cspOpt with
    | some o => o.cspDirectives
    | none => none
  let routes := (pages.foldl (buildVercelRouteStep cspOpt) (initShared, [])).2
  { version := 3, routes := some routes }

/-! ## Association-list and string-order lemmas -/

theorem assocLookup_assocSet_ne (m : List (Str × α)) (k k2 : Str) (v : α)
    (h : k ≠ k2) : assocLookup (assocSet m k v) k2 = assocLookup m k2 := by
  induction m with
  | nil => simp [assocSet, assocLookup, h]
  | cons p rest ih =>
    obtain ⟨k3, v3⟩ := p
    by_cases hk : k3 = k
    · subst hk
      simp [assocSet, assocLookup, h]
    · simp [assocSet, assocLookup, hk, ih]

theorem assocLookup_assocSet_self (m : List (Str × α)) (k : Str) (v : α) :
    assocLookup (assocSet m k v) k = some v := by
  induction m with
  | nil => simp [assocSet, assocLookup]
  | cons p rest ih =>
    obtain ⟨k3, v3⟩ := p
    by_cases hk : k3 = k
    · subst hk
      simp [assocSet, assocLookup]
    · simp [assocSet, assocLookup, hk, ih]

theorem strLtB_asymm : ∀ a b : Str, strLtB a b = true → strLtB b a = false := by
  intro a
  induction a with
  | nil =>
    intro b h
    cases b with
    | nil => simp [strLtB] at h
    | cons y ys => simp [strLtB]
  | cons x xs ih =>
    intro b h
    cases b with
    | nil => simp [strLtB] at h
    | cons y ys =>
      simp only [strLtB] at h ⊢
      by_cases h1 : x.toNat < y.toNat
      · have h2 : ¬ y.toNat < x.toNat := by omega
        simp [h1, h2]
      · by_cases h2 : y.toNat < x.toNat
        · simp [h1, h2] at h
        · simp [h1, h2] at h ⊢
          exact ih ys h

/-! ## Claims C1 and C2 (Vercel adapter) -/

def vcBaseRouteEx : VercelRoute :=
  { src := "/nothing.html".data,
    headers := [(cspHeaderName, "script-src 'none'; style-src 'none'".data)] }

def vcPatchRouteEx : VercelRoute :=
  { src := "/onlystyles.html".data,
    headers := [(cspHeaderName, "script-src 'none'; style-src 'self' 'sha256-VC84dQdO3Mo7nZIRaNTJgrqPQ0foHI8gdp/DS+e9/lk='".data)] }

/-- C1: the claim (and the repository's own test in `vercel.test.mts`,
`describe('mergeVercelConfig')`) says the merged routes list is
`patch.routes` concatenated *before* `base.routes`.  The code
(vercel.mts:118) spreads `base.routes` first: at the test's own input the
result is `[baseRoute, patchRoute]`, not `[patchRoute, baseRoute]`.  The
`version` part of the claim does hold (`{...base}` keeps `base.version`). -/
theorem C1_mergeVercelConfig_base_routes_first :
    mergeVercelConfig { version := 3, routes := some [vcBaseRouteEx] }
        { version := 3, routes := some [vcPatchRouteEx] } =
      { version := 3, routes := some [vcBaseRouteEx, vcPatchRouteEx] } ∧
    ({ version := 3, routes := some [vcBaseRouteEx, vcPatchRouteEx] } : VercelConfig) ≠
      { version := 3, routes := some [vcPatchRouteEx, vcBaseRouteEx] } := by
  exact ⟨rfl, by decide⟩

/-- C2: the claim (and the repository's own test in `vercel.test.mts`,
`describe('buildVercelConfig')`) says every generated route carries
`continue: true`.  The code (vercel.mts:107) pushes `{ src, headers }`
without a `continue` field: at a minimal input with `contentSecurityPolicy`
configured, the generated route has no `continue` field at all. -/
def vcBuiltRouteEx : VercelRoute :=
  { src := "/index.html".data,
    headers := [(cspHeaderName, "script-src 'none'; style-src 'none'".data)] }

theorem C2_buildVercelConfig_routes_lack_continue :
    buildVercelConfig .ignore { contentSecurityPolicy := some {} }
        [("index.html".data, ⟨[], []⟩)] =
      { version := 3, routes := some [vcBuiltRouteEx] } ∧
    vcBuiltRouteEx.routeContinue = none := by
  exact ⟨rfl, rfl⟩

/-! ## Claims C4 and C10 (CSP builder / header patching) -/

theorem serialiseHashes_pair (H1 H2 : Str) (h : strLtB H1 H2 = true) :
    serialiseHashes [H1, H2] = quoteHash H1 ++ ' ' :: quoteHash H2 := by
  have h2 : strLtB H2 H1 = false := strLtB_asymm H1 H2 h
  simp [serialiseHashes, jsSortBy, insertLe, strLeB, h2, joinWithSep]

theorem pairKey_script_lt_style (v1 v2 : Str) :
    strLtB (pairSortKey (scriptSrcName, v1)) (pairSortKey (styleSrcName, v2)) = true := by
  rfl

theorem assocLookup_setSrcDirective_ne (m : CSPDirectives) (k k2 : Str)
    (hashes : List Str) (h : k ≠ k2) :
    assocLookup (setSrcDirective m k hashes) k2 = assocLookup m k2 := by
  simp only [setSrcDirective]
  split <;> simp [assocLookup_assocSet_ne _ _ _ _ h]

/-- C4: with hash sets scripts `{H1, H2}` (in lexicographic order), styles
`{}`, no configured default directives and no pre-existing
`content-security-policy` header, `patchCspHeader` produces exactly
`script-src 'self' 'H1' 'H2'; style-src 'none'`; and in general a category
with zero hashes always gets the directive value `'none'`. -/
theorem C4_patchCspHeader_composition (H1 H2 : Str) (hlt : strLtB H1 H2 = true) :
    patchCspHeader [] ⟨[H1, H2], []⟩ {} =
      [(cspHeaderName,
        "script-src 'self' ".data ++ quoteHash H1 ++ ' ' :: quoteHash H2 ++
          "; style-src 'none'".data)] ∧
    (∀ (plainHeaders : List (Str × Str)) (pageHashes : PerPageHashes)
        (cspOpts : CSPOptions), pageHashes.scripts = [] →
      assocLookup (patchedCspDirectives plainHeaders pageHashes cspOpts)
        scriptSrcName = some noneSourceVal) ∧
    (∀ (plainHeaders : List (Str × Str)) (pageHashes : PerPageHashes)
        (cspOpts : CSPOptions), pageHashes.styles = [] →
      assocLookup (patchedCspDirectives plainHeaders pageHashes cspOpts)
        styleSrcName = some noneSourceVal) := by
  refine ⟨?_, ?_, ?_⟩
  · have hs := serialiseHashes_pair H1 H2 hlt
    have hk := pairKey_script_lt_style
      ("'self' ".data ++ serialiseHashes [H1, H2]) noneSourceVal
    simp [patchCspHeader, patchedCspDirectives, setSrcDirective, assocLookup,
      assocSet, serialiseCspDirectives, jsSortBy, insertLe, strLeB, hk, hs,
      joinWithSep, scriptSrcName, styleSrcName, cspHeaderName, noneSourceVal]
  · intro plainHeaders pageHashes cspOpts hsc
    have hne : styleSrcName ≠ scriptSrcName := by decide
    simp only [patchedCspDirectives, hsc]
    by_cases hst : pageHashes.styles = []
    · simp [hst, assocLookup_assocSet_ne _ _ _ _ hne, assocLookup_assocSet_self]
    · simp [hst, assocLookup_setSrcDirective_ne _ _ _ _ hne,
        assocLookup_assocSet_self]
  · intro plainHeaders pageHashes cspOpts hst
    simp only [patchedCspDirectives, hst]
    simp [assocLookup_assocSet_self]

/-- Witness for C4 at concrete hashes. -/
theorem C4_patchCspHeader_composition_witness :
    patchCspHeader [] ⟨["sha256-A".data, "sha256-B".data], []⟩ {} =
      [(cspHeaderName,
        "script-src 'self' 'sha256-A' 'sha256-B'; style-src 'none'".data)] := by
  have h := (C4_patchCspHeader_composition "sha256-A".data "sha256-B".data
    (by decide)).1
  exact h.trans (by decide)

/-- C10: `patchHeaders` preserves every header other than
`content-security-policy`, and when `contentSecurityPolicy` is not configured
it changes nothing at all. -/
theorem C10_patchHeaders_frame (headers : List (Str × Str))
    (pageHashes : PerPageHashes) (opts : SecurityHeadersOptions) :
    (∀ name, name ≠ cspHeaderName →
      assocLookup (patchHeaders headers pageHashes opts) name =
        assocLookup headers name) ∧
    (opts.contentSecurityPolicy = none →
      patchHeaders headers pageHashes opts = headers) := by
  cases hcsp : opts.contentSecurityPolicy with
  | none => simp [patchHeaders, hcsp]
  | some cspOpts =>
    constructor
    · intro name hname
      simp only [patchHeaders, hcsp, patchCspHeader]
      split
      · exact assocLookup_assocSet_ne _ _ _ _ (Ne.symm hname)
      · rfl
    · intro h
      simp [hcsp] at h

/-- Witness for C10 at a concrete header map. -/
theorem C10_patchHeaders_frame_witness :
    assocLookup
        (patchHeaders [("x-frame-options".data, "DENY".data)] ⟨[], []⟩
          { contentSecurityPolicy := some {} }) "x-frame-options".data =
      assocLookup [("x-frame-options".data, "DENY".data)] "x-frame-options".data := by
  exact (C10_patchHeaders_frame [("x-frame-options".data, "DENY".data)] ⟨[], []⟩
    { contentSecurityPolicy := some {} }).1 "x-frame-options".data (by decide)

/-! ## Netlify headers adapter (`netlify.mts`) -/

inductive PathEntry
  | header (headerName value : Str)
  | comment (text : Str)
deriving DecidableEq

inductive ConfigEntry
  | pathBlock (path : Str) (entries : List PathEntry)
  | comment (text : Str)
  | emptyLine
deriving DecidableEq

structure NetlifyHeadersRawConfig where
  indentWith : Str
  entries : List ConfigEntry
deriving DecidableEq

/-- `spacesRegex.test(line)` for `/^\s+/`. -/
def startsWithSpace : Str → Bool
  | [] => false
  | c :: _ => isSpaceJS c

/-- `commentRegex` (`/^(?<indent>\s*)(?<comment>#.*)$/i`): greedy leading
whitespace, then a fragment starting with `#`; the `.*$` tail fails whenever
a line terminator follows the `#`. -/
def commentLineParse (line : Str) : Option (Str × Str) :=
  match line.dropWhile isSpaceJS with
  | '#' :: rest =>
    if noTerm rest then some (line.takeWhile isSpaceJS, '#' :: rest)
    else none
  | _ => none

/-- The character class `[a-zA-Z0-9_\-]` of `headerRegex` (with `/i`). -/
def isHeaderNameChar (c : Char) : Bool :=
  (97 ≤ c.toNat && c.toNat ≤ 122) || (65 ≤ c.toNat && c.toNat ≤ 90) ||
    (48 ≤ c.toNat && c.toNat ≤ 57) || c = '_' || c = '-'

/-- `headerRegex` (`/^(?<indent>\s*)(?<name>([a-zA-Z0-9_\-]+)):\s*(?<value>.*)$/i`):
greedy leading whitespace, a non-empty name, `:`, greedy whitespace, the rest
as value; the `.*$` tail fails whenever the value still contains a line
terminator (terminators inside the `:\s*` run are consumed by `\s*`).  The
regex is otherwise deterministic: name characters are disjoint from
whitespace and from `:`, so no backtracking can produce another match. -/
def headerLineParse (line : Str) : Option (Str × Str × Str) :=
  if (line.dropWhile isSpaceJS).takeWhile isHeaderNameChar = [] then none
  else
    match (line.dropWhile isSpaceJS).dropWhile isHeaderNameChar with
    | ':' :: rest3 =>
      if noTerm (rest3.dropWhile isSpaceJS) then
        some (line.takeWhile isSpaceJS,
          (line.dropWhile isSpaceJS).takeWhile isHeaderNameChar,
          rest3.dropWhile isSpaceJS)
      else none
    | _ => none

def badSyntaxMsg (n : Nat) : String := s!"Bad syntax (line {n})"
def unexpectedIndentMsg (n : Nat) : String := s!"Unexpected indentation (line {n})"
def unableInferMsg (n : Nat) : String := s!"Unable to infer indentation (line {n})"

/-- The parser context (netlify.mts:38).  In the JS, a path block is pushed
into `entries` when its path line is read and then mutated in place; here the
in-progress block is kept in `currentPath` and appended when it closes, which
yields the same final order because no other entry is pushed while a block is
open. -/
structure ParseCtx where
  indentWith : Option Str
  entries : List ConfigEntry
  currentPath : Option (Str × List PathEntry)
deriving DecidableEq

def flushCurrent (ctx : ParseCtx) : ParseCtx :=
  match ctx.currentPath with
  | none => ctx
  | some (p, es) =>
    { ctx with entries := ctx.entries ++ [.pathBlock p es], currentPath := none }

/-- `tryToInitializePathConfig` (netlify.mts:44); precondition in the source:
`ctx.currentPath === undefined`. -/
def tryToInitializePathConfig (lineNum : Nat) (line : Str) (ctx : ParseCtx) :
    Except String ParseCtx :=
  if line = [] then .ok { ctx with entries := ctx.entries ++ [.emptyLine] }
  else if beginsWith ['#'] line then
    .ok { ctx with entries := ctx.entries ++ [.comment line] }
  else if startsWithSpace line then .error (unexpectedIndentMsg lineNum)
  else if beginsWith ['/'] line then .ok { ctx with currentPath := some (line, []) }
  else .error (badSyntaxMsg lineNum)

/-- `currentPath?.entries.push(entry)` (the optional chaining of
`pushComment`/`pushHeader`, netlify.mts:63-87). -/
def pushToCurrent (ctx : ParseCtx) (entry : PathEntry) : ParseCtx :=
  match ctx.currentPath with
  | none => ctx
  | some (p, es) => { ctx with currentPath := some (p, es ++ [entry]) }

/-- `pushEntry` (netlify.mts:89); `indent` is the line's leading whitespace
(the regexes' `indent` group, which always exists, so the source's
`indent === undefined` error branch is dead). -/
def pushEntryStep (lineNum : Nat) (line : Str) (indent : Str) (entry : PathEntry)
    (ctx : ParseCtx) : Except String ParseCtx :=
  match ctx.indentWith with
  | none =>
    if indent = [] then .error (unableInferMsg lineNum)
    else .ok (pushToCurrent { ctx with indentWith := some indent } entry)
  | some iw =>
    if indent = [] then
      if ((ctx.currentPath.map (fun c => c.2.length)).getD 0) = 0 then
        .error (badSyntaxMsg lineNum)
      else tryToInitializePathConfig lineNum line (flushCurrent ctx)
    else if indent ≠ iw then .error (unexpectedIndentMsg lineNum)
    else .ok (pushToCurrent ctx entry)

/-- `processPathLine` (netlify.mts:123); precondition in the source:
`ctx.currentPath !== undefined`.  An indented line matching neither regex is
silently ignored, as in the source. -/
def processPathLine (lineNum : Nat) (line : Str) (ctx : ParseCtx) :
    Except String ParseCtx :=
  match commentLineParse line with
  | some (indent, text) => pushEntryStep lineNum line indent (.comment text) ctx
  | none =>
    match headerLineParse line with
    | some (indent, name, value) =>
      pushEntryStep lineNum line indent (.header name value) ctx
    | none =>
      if !startsWithSpace line then
        if ((ctx.currentPath.map (fun c => c.2.length)).getD 0) = 0 then
          .error (badSyntaxMsg lineNum)
        else tryToInitializePathConfig lineNum line (flushCurrent ctx)
      else .ok ctx

/-- One iteration of the parse loop (netlify.mts:156-160). -/
def parseNetlifyStep (n : Nat) (line : Str) (ctx : ParseCtx) :
    Except String ParseCtx :=
  match ctx.currentPath with
  | none => tryToInitializePathConfig n line ctx
  | some _ => processPathLine n line ctx

/-- The loop of `parseNetlifyHeadersConfig` (netlify.mts:155). -/
def parseNetlifyLines : List (Nat × Str) → ParseCtx → Except String ParseCtx
  | [], ctx => .ok ctx
  | (n, line) :: rest, ctx =>
    match parseNetlifyStep n line ctx with
    | .error e => .error e
    | .ok ctx2 => parseNetlifyLines rest ctx2

/-- `list.entries()` (0-based enumeration). -/
def enumFrom (i : Nat) : List α → List (Nat × α)
  | [] => []
  | x :: xs => (i, x) :: enumFrom (i + 1) xs

/-- `parseNetlifyHeadersConfig` (netlify.mts:146). -/
def parseNetlifyHeadersConfig (config : Str) :
    Except String NetlifyHeadersRawConfig :=
  match parseNetlifyLines (enumFrom 0 (splitOnChar '\n' config))
      ⟨none, [], none⟩ with
  | .error e => .error e
  | .ok ctx0 =>
    let ctx := flushCurrent ctx0
    let entries :=
      if ctx.entries.getLast? = some .emptyLine then ctx.entries.dropLast
      else ctx.entries
    .ok { indentWith := ctx.indentWith.getD ['\t'], entries := entries }

/-- One line of a path block's serialization (netlify.mts:188-192). -/
def serializePathEntry (indent : Str) : PathEntry → Str
  | .comment text => indent ++ text
  | .header name value => indent ++ name ++ ": ".data ++ value

/-- `serializeNetlifyHeadersConfig` (netlify.mts:175). -/
def serializeNetlifyHeadersConfig (config : NetlifyHeadersRawConfig) : Str :=
  config.entries.foldl
    (fun result entry =>
      match entry with
      | .emptyLine => result ++ ['\n']
      | .comment text => result ++ text ++ ['\n']
      | .pathBlock p es =>
        result ++ p ++ '\n' ::
          joinWithSep ['\n'] (es.map (serializePathEntry config.indentWith)) ++
          ['\n'])
    []

/-- `compareConfigEntries` (netlify.mts:200): comments and empty lines compare
equal to everything; blocks compare by path. -/
def compareConfigEntries : ConfigEntry → ConfigEntry → Int
  | .emptyLine, _ => 0
  | _, .emptyLine => 0
  | .comment _, _ => 0
  | _, .comment _ => 0
  | .pathBlock p1 _, .pathBlock p2 _ =>
    if strLtB p1 p2 then -1 else if strLtB p2 p1 then 1 else 0

/-- `comparePathEntries` (netlify.mts:215): by name, then by value. -/
def comparePathEntries : PathEntry → PathEntry → Int
  | .comment _, _ => 0
  | _, .comment _ => 0
  | .header n1 v1, .header n2 v2 =>
    if strLtB n1 n2 then -1
    else if strLtB n2 n1 then 1
    else if strLtB v1 v2 then -1
    else if strLtB v2 v1 then 1
    else 0

/-- `comparePathEntriesSimplified` (netlify.mts:234): by name only. -/
def comparePathEntriesSimplified : PathEntry → PathEntry → Int
  | .comment _, _ => 0
  | _, .comment _ => 0
  | .header n1 _, .header n2 _ =>
    if strLtB n1 n2 then -1 else if strLtB n2 n1 then 1 else 0

/-- The two-index merge loop of `mergeNetlifyPathHeaders` (netlify.mts:305),
with fuel (one unit per consumed entry; the initial fuel
`base.length + patch.length` always suffices). -/
def mergeNetlifyPathHeadersAux : Nat → List PathEntry → List PathEntry →
    List PathEntry
  | 0, base, patch => base ++ patch
  | _ + 1, [], patch => patch
  | _ + 1, base, [] => base
  | f + 1, b :: bs, p :: ps =>
    let c := comparePathEntriesSimplified b p
    if c = -1 then b :: mergeNetlifyPathHeadersAux f bs (p :: ps)
    else if c = 0 then
      match p with
      | .comment _ => mergeNetlifyPathHeadersAux f (b :: bs) ps
      | .header _ _ =>
        match b with
        | .comment _ => b :: mergeNetlifyPathHeadersAux f bs (p :: ps)
        | .header _ _ => p :: mergeNetlifyPathHeadersAux f bs ps
    else p :: mergeNetlifyPathHeadersAux f (b :: bs) ps

def mergeNetlifyPathHeaders (base patch : List PathEntry) : List PathEntry :=
  mergeNetlifyPathHeadersAux (base.length + patch.length) base patch

/-- The two-index merge loop of `mergeNetlifyHeadersConfig` (netlify.mts:371),
with fuel.  The source's `throw new Error('Unreachable')` branches are mapped
to `.error`. -/
def mergeNetlifyConfigEntriesAux : Nat → List ConfigEntry → List ConfigEntry →
    Except String (List ConfigEntry)
  | 0, base, patch => .ok (base ++ patch)
  | _ + 1, [], patch => .ok patch
  | _ + 1, base, [] => .ok base
  | f + 1, b :: bs, p :: ps =>
    let c := compareConfigEntries b p
    if c = -1 then do
      let rest ← mergeNetlifyConfigEntriesAux f bs (p :: ps)
      match b with
      | .pathBlock _ [] => .ok rest
      | _ => .ok (b :: rest)
    else if c = 0 then
      match p with
      | .emptyLine => mergeNetlifyConfigEntriesAux f (b :: bs) ps
      | .comment _ => mergeNetlifyConfigEntriesAux f (b :: bs) ps
      | .pathBlock pPath pEntries =>
        match b with
        | .emptyLine => do
          let rest ← mergeNetlifyConfigEntriesAux f (b :: bs) ps
          .ok (.pathBlock pPath pEntries :: rest)
        | .comment _ => do
          let rest ← mergeNetlifyConfigEntriesAux f (b :: bs) ps
          .ok (.pathBlock pPath pEntries :: rest)
        | .pathBlock bPath bEntries =>
          if bPath = pPath then do
            let rest ← mergeNetlifyConfigEntriesAux f bs ps
            .ok (.pathBlock bPath
              (mergeNetlifyPathHeaders bEntries pEntries) :: rest)
          else .error "Unreachable"
    else do
      let rest ← mergeNetlifyConfigEntriesAux f (b :: bs) ps
      match p with
      | .pathBlock _ [] => .ok rest
      | _ => .ok (p :: rest)

/-- `mergeNetlifyHeadersConfig` (netlify.mts:360).  The JS sorts the entry
lists with `compareConfigEntries` (a stable engine sort); modelled with the
stable insertion sort `jsSortBy`. -/
def mergeNetlifyHeadersConfig (base patch : NetlifyHeadersRawConfig) :
    Except String NetlifyHeadersRawConfig := do
  let baseEntries := jsSortBy (fun a b => compareConfigEntries a b ≤ 0) base.entries
  let patchEntries := jsSortBy (fun a b => compareConfigEntries a b ≤ 0) patch.entries
  let merged ← mergeNetlifyConfigEntriesAux
    (baseEntries.length + patchEntries.length) baseEntries patchEntries
  .ok { indentWith := base.indentWith, entries := merged }

/-! ## Claim C3 (Netlify parse errors and line numbers) -/

def exceptDecEq [DecidableEq e] [DecidableEq a] : DecidableEq (Except e a) :=
  fun x y =>
  match x, y with
  | .ok v, .ok w =>
    if h : v = w then isTrue (by rw [h]) else isFalse (by intro hc; cases hc; exact h rfl)
  | .error v, .error w =>
    if h : v = w then isTrue (by rw [h]) else isFalse (by intro hc; cases hc; exact h rfl)
  | .ok _, .error _ => isFalse (by intro hc; cases hc)
  | .error _, .ok _ => isFalse (by intro hc; cases hc)

instance [DecidableEq e] [DecidableEq a] : DecidableEq (Except e a) := exceptDecEq

theorem tryToInitializePathConfig_error {n : Nat} {line : Str} {ctx : ParseCtx}
    {msg : String} (h : tryToInitializePathConfig n line ctx = .error msg) :
    msg = unexpectedIndentMsg n \/ msg = badSyntaxMsg n := by
  unfold tryToInitializePathConfig at h
  split_ifs at h <;> simp_all

theorem pushEntryStep_error {n : Nat} {line indent : Str} {entry : PathEntry}
    {ctx : ParseCtx} {msg : String}
    (h : pushEntryStep n line indent entry ctx = .error msg) :
    msg = badSyntaxMsg n ∨ msg = unexpectedIndentMsg n ∨ msg = unableInferMsg n := by
  unfold pushEntryStep at h
  split at h
  · split at h
    · simp only [Except.error.injEq] at h
      exact Or.inr (Or.inr h.symm)
    · simp at h
  · split at h
    · split at h
      · simp only [Except.error.injEq] at h
        exact Or.inl h.symm
      · rcases tryToInitializePathConfig_error h with h4 | h4
        · exact Or.inr (Or.inl h4)
        · exact Or.inl h4
    · split at h
      · simp only [Except.error.injEq] at h
        exact Or.inr (Or.inl h.symm)
      · simp at h

theorem processPathLine_error {n : Nat} {line : Str} {ctx : ParseCtx}
    {msg : String} (h : processPathLine n line ctx = .error msg) :
    msg = badSyntaxMsg n ∨ msg = unexpectedIndentMsg n ∨ msg = unableInferMsg n := by
  unfold processPathLine at h
  split at h
  · exact pushEntryStep_error h
  · split at h
    · exact pushEntryStep_error h
    · split at h
      · split at h
        · simp only [Except.error.injEq] at h
          exact Or.inl h.symm
        · rcases tryToInitializePathConfig_error h with h4 | h4
          · exact Or.inr (Or.inl h4)
          · exact Or.inl h4
      · simp at h

theorem parseNetlifyStep_error {n : Nat} {line : Str} {ctx : ParseCtx}
    {msg : String} (h : parseNetlifyStep n line ctx = .error msg) :
    msg = badSyntaxMsg n ∨ msg = unexpectedIndentMsg n ∨ msg = unableInferMsg n := by
  unfold parseNetlifyStep at h
  split at h
  · rcases tryToInitializePathConfig_error h with h2 | h2
    · exact Or.inr (Or.inl h2)
    · exact Or.inl h2
  · exact processPathLine_error h

theorem parseNetlifyLines_error :
    ∀ (pairs : List (Nat × Str)) (ctx : ParseCtx) (msg : String),
      parseNetlifyLines pairs ctx = .error msg →
      ∃ p ∈ pairs, msg = badSyntaxMsg p.1 ∨ msg = unexpectedIndentMsg p.1 ∨
        msg = unableInferMsg p.1 := by
  intro pairs
  induction pairs with
  | nil => intro ctx msg h; simp [parseNetlifyLines] at h
  | cons q rest ih =>
    intro ctx msg h
    obtain ⟨n, line⟩ := q
    simp only [parseNetlifyLines] at h
    split at h
    · rename_i e heq
      simp only [Except.error.injEq] at h
      subst h
      exact ⟨(n, line), by simp, parseNetlifyStep_error heq⟩
    · rename_i ctx2 heq
      obtain ⟨p, hp, hmsg⟩ := ih ctx2 msg h
      exact ⟨p, by simp [hp], hmsg⟩

theorem mem_enumFrom_lt {p : Nat × β} :
    ∀ (i : Nat) (l : List β), p ∈ enumFrom i l → p.1 < i + l.length := by
  intro i l
  induction l generalizing i with
  | nil => intro h; simp [enumFrom] at h
  | cons x xs ih =>
    intro h
    simp only [enumFrom, List.mem_cons] at h
    rcases h with h | h
    · subst h; simp
    · have := ih (i + 1) h
      simp only [List.length_cons]
      omega

/-- C3 (amended): whenever `parseNetlifyHeadersConfig` fails, the error
message is one of the three parse-error templates rendered with the *0-based*
index of the line being processed when the failure is detected (so the cited
number is one less than the offending line's 1-based number). -/
theorem C3_parse_error_cites_zero_based_line (config : Str) (msg : String)
    (h : parseNetlifyHeadersConfig config = .error msg) :
    ∃ i, i < (splitOnChar '\n' config).length ∧
      (msg = badSyntaxMsg i \/ msg = unexpectedIndentMsg i \/
        msg = unableInferMsg i) := by
  unfold parseNetlifyHeadersConfig at h
  split at h
  · rename_i e heq
    simp only [Except.error.injEq] at h
    subst h
    obtain ⟨p, hmem, hmsg⟩ := parseNetlifyLines_error _ _ _ heq
    have := mem_enumFrom_lt 0 _ hmem
    exact ⟨p.1, by omega, hmsg⟩
  · simp at h

/-- Witness for C3 at a concrete failing config (`"/a\n  X: 1\n\tY: 2"`). -/
theorem C3_parse_error_cites_zero_based_line_witness :
    ∃ i, i < (splitOnChar '\n' ("/a\n  X: 1\n\tY: 2".data)).length ∧
      (("Unexpected indentation (line 2)" : String) = badSyntaxMsg i \/
        ("Unexpected indentation (line 2)" : String) = unexpectedIndentMsg i \/
        ("Unexpected indentation (line 2)" : String) = unableInferMsg i) := by
  exact C3_parse_error_cites_zero_based_line ("/a\n  X: 1\n\tY: 2".data)
    "Unexpected indentation (line 2)" (by decide)

/-- C3 counterexample to the claim as stated: the offending line (the one
with the changed indentation, `"\tY: 2"`) is the third line, so its 1-based
number is 3, but the thrown message cites 2 (its 0-based index) — exactly as
the repository's own `netlify.test.mts` expects. -/
theorem C3_counterexample_one_based :
    parseNetlifyHeadersConfig ("/a\n  X: 1\n\tY: 2".data) =
      .error "Unexpected indentation (line 2)" ∧
    (splitOnChar '\n' ("/a\n  X: 1\n\tY: 2".data)).get? 2 = some ("\tY: 2".data) ∧
    ("Unexpected indentation (line 2)" : String) ≠ unexpectedIndentMsg 3 := by
  refine ⟨by decide, by decide, by decide⟩

/-! ## Claim C6 (Netlify merge keyed on header name) -/

theorem charEq_of_toNat_eq {x y : Char} (h : x.toNat = y.toNat) : x = y :=
  Char.eq_of_val_eq (UInt32.toNat.inj h)

theorem strLtB_irrefl : ∀ a : Str, strLtB a a = false := by
  intro a
  induction a with
  | nil => rfl
  | cons x xs ih => simp [strLtB, ih]

theorem strLtB_trans :
    ∀ a b c : Str, strLtB a b = true → strLtB b c = true → strLtB a c = true := by
  intro a
  induction a with
  | nil =>
    intro b c h1 h2
    cases c with
    | nil =>
      cases b with
      | nil => exact h1
      | cons y ys => simp [strLtB] at h2
    | cons z zs => simp [strLtB]
  | cons x xs ih =>
    intro b c h1 h2
    cases b with
    | nil => simp [strLtB] at h1
    | cons y ys =>
      cases c with
      | nil => simp [strLtB] at h2
      | cons z zs =>
        simp only [strLtB] at h1 h2 ⊢
        by_cases hxy : x.toNat < y.toNat
        · by_cases hyz : y.toNat < z.toNat
          · simp [show x.toNat < z.toNat by omega]
          · by_cases hzy : z.toNat < y.toNat
            · simp [hyz, hzy] at h2
            · simp [show x.toNat < z.toNat by omega]
        · by_cases hyx : y.toNat < x.toNat
          · simp [hxy, hyx] at h1
          · simp only [hxy, hyx, if_false] at h1
            by_cases hyz : y.toNat < z.toNat
            · simp [show x.toNat < z.toNat by omega]
            · by_cases hzy : z.toNat < y.toNat
              · simp [hyz, hzy] at h2
              · simp only [hyz, hzy, if_false] at h2
                have hne1 : ¬ x.toNat < z.toNat := by omega
                have hne2 : ¬ z.toNat < x.toNat := by omega
                simp only [hne1, hne2, if_false]
                exact ih ys zs h1 h2

theorem strLtB_total_eq :
    ∀ a b : Str, strLtB a b = false → strLtB b a = false → a = b := by
  intro a
  induction a with
  | nil =>
    intro b h1 h2
    cases b with
    | nil => rfl
    | cons y ys => simp [strLtB] at h1
  | cons x xs ih =>
    intro b h1 h2
    cases b with
    | nil => simp [strLtB] at h2
    | cons y ys =>
      simp only [strLtB] at h1 h2
      by_cases hxy : x.toNat < y.toNat
      · simp [hxy] at h1
      · by_cases hyx : y.toNat < x.toNat
        · simp [hyx] at h2
        · simp only [hxy, hyx, if_false] at h1 h2
          have hx : x = y := charEq_of_toNat_eq (by omega)
          rw [hx, ih ys h1 h2]

/-- A path block whose entries are headers only, strictly ascending by
header name (the shape `buildNetlifyHeadersConfig` emits and the shape the
merge walk of `mergeNetlifyPathHeaders` requires). -/
def strictlySortedHeaders : List PathEntry → Bool
  | [] => true
  | [.header _ _] => true
  | .header n1 _ :: .header n2 v2 :: rest =>
    strLtB n1 n2 && strictlySortedHeaders (.header n2 v2 :: rest)
  | _ => false

/-- The first header entry named `n` (merge precedence is decided by the
first occurrence). -/
def findHeader : List PathEntry → Str → Option Str
  | [], _ => none
  | .comment _ :: rest, n => findHeader rest n
  | .header n2 v :: rest, n => if n2 = n then some v else findHeader rest n

theorem strictlySortedHeaders_tail {e : PathEntry} {rest : List PathEntry}
    (h : strictlySortedHeaders (e :: rest) = true) :
    strictlySortedHeaders rest = true := by
  cases e with
  | comment t => simp [strictlySortedHeaders] at h
  | header n v =>
    cases rest with
    | nil => rfl
    | cons e2 r2 =>
      cases e2 with
      | comment t => simp [strictlySortedHeaders] at h
      | header n2 v2 =>
        simp only [strictlySortedHeaders, Bool.and_eq_true] at h
        exact h.2

/-- In a strictly sorted header list whose head name is above `n`, `n` does
not occur. -/
theorem findHeader_none_of_lt_head :
    ∀ (es : List PathEntry) (n n2 v2 : Str),
      strictlySortedHeaders (.header n2 v2 :: es) = true →
      strLtB n n2 = true → findHeader (.header n2 v2 :: es) n = none := by
  intro es
  induction es with
  | nil =>
    intro n n2 v2 _ hlt
    have hne : n2 ≠ n := fun he => by
      subst he
      rw [strLtB_irrefl] at hlt
      cases hlt
    simp [findHeader, hne]
  | cons e rest ih =>
    intro n n2 v2 hs hlt
    have hne : n2 ≠ n := fun he => by
      subst he
      rw [strLtB_irrefl] at hlt
      cases hlt
    cases e with
    | comment t => simp [strictlySortedHeaders] at hs
    | header n3 v3 =>
      simp only [strictlySortedHeaders, Bool.and_eq_true] at hs
      have hlt3 : strLtB n n3 = true := strLtB_trans n n2 n3 hlt hs.1
      simp only [findHeader, hne, if_false]
      exact ih n n3 v3 hs.2 hlt3

theorem matchOr_congr (o : Option Str) {d1 d2 : Option Str} (hd : d1 = d2) :
    (match o with | some v => some v | none => d1) =
      (match o with | some v => some v | none => d2) := by
  rw [hd]

/-- The merge walk of `mergeNetlifyPathHeaders`, on name-sorted header-only
blocks, is keyed on header name: the first header named `n` in the result is
the patch's entry when the patch names `n`, the base's entry otherwise. -/
theorem mergeAux_findHeader :
    ∀ (fuel : Nat) (base patch : List PathEntry),
      base.length + patch.length ≤ fuel →
      strictlySortedHeaders base = true → strictlySortedHeaders patch = true →
      ∀ n, findHeader (mergeNetlifyPathHeadersAux fuel base patch) n =
        (match findHeader patch n with
          | some v => some v
          | none => findHeader base n) := by
  intro fuel
  induction fuel with
  | zero =>
    intro base patch hlen _ _ n
    have hb : base = [] := by cases base <;> simp_all
    have hp : patch = [] := by cases patch <;> simp_all
    subst hb
    subst hp
    simp [mergeNetlifyPathHeadersAux, findHeader]
  | succ f ih =>
    intro base patch hlen hsb hsp n
    cases base with
    | nil =>
      simp only [mergeNetlifyPathHeadersAux]
      cases hfp : findHeader patch n <;> simp [hfp, findHeader]
    | cons b bs =>
      cases patch with
      | nil =>
        simp [mergeNetlifyPathHeadersAux, findHeader]
      | cons p ps =>
        cases b with
        | comment t => simp [strictlySortedHeaders] at hsb
        | header n1 v1 =>
          cases p with
          | comment t => simp [strictlySortedHeaders] at hsp
          | header n2 v2 =>
            have hsb2 := strictlySortedHeaders_tail hsb
            have hsp2 := strictlySortedHeaders_tail hsp
            have hlb : bs.length + (PathEntry.header n2 v2 :: ps).length ≤ f := by
              simp at hlen ⊢
              omega
            have hlp : (PathEntry.header n1 v1 :: bs).length + ps.length ≤ f := by
              simp at hlen ⊢
              omega
            have hlbp : bs.length + ps.length ≤ f := by
              simp at hlen ⊢
              omega
            by_cases h12 : strLtB n1 n2 = true
            · simp only [mergeNetlifyPathHeadersAux, comparePathEntriesSimplified,
                h12, if_true, reduceIte]
              by_cases hn : n1 = n
              · subst hn
                have hnone : findHeader (.header n2 v2 :: ps) n1 = none :=
                  findHeader_none_of_lt_head ps n1 n2 v2 hsp h12
                rw [hnone]
                simp [findHeader]
              · have hstep : findHeader (PathEntry.header n1 v1 ::
                    mergeNetlifyPathHeadersAux f bs (PathEntry.header n2 v2 :: ps)) n =
                    findHeader (mergeNetlifyPathHeadersAux f bs
                      (PathEntry.header n2 v2 :: ps)) n := by
                  simp [findHeader, hn]
                rw [hstep, ih bs (.header n2 v2 :: ps) hlb hsb2 hsp]
                exact matchOr_congr _ (by simp [findHeader, hn])
            · by_cases h21 : strLtB n2 n1 = true
              · simp only [mergeNetlifyPathHeadersAux, comparePathEntriesSimplified]
                simp only [h12, h21, Bool.false_eq_true, if_false, if_true, reduceIte]
                simp only [show (((1 : Int) = -1) = False) from by decide,
                  show (((1 : Int) = 0) = False) from by decide, if_false]
                by_cases hn : n2 = n
                · subst hn
                  simp [findHeader]
                · have hstep : findHeader (PathEntry.header n2 v2 ::
                      mergeNetlifyPathHeadersAux f (PathEntry.header n1 v1 :: bs) ps) n =
                      findHeader (mergeNetlifyPathHeadersAux f
                        (PathEntry.header n1 v1 :: bs) ps) n := by
                    simp [findHeader, hn]
                  rw [hstep, ih (.header n1 v1 :: bs) ps hlp hsb hsp2]
                  have hsc : findHeader (PathEntry.header n2 v2 :: ps) n =
                      findHeader ps n := by
                    simp [findHeader, hn]
                  rw [hsc]
              · have heq : n1 = n2 := strLtB_total_eq n1 n2
                  (by cases h : strLtB n1 n2 <;> simp_all)
                  (by cases h : strLtB n2 n1 <;> simp_all)
                subst heq
                simp only [mergeNetlifyPathHeadersAux, comparePathEntriesSimplified]
                simp only [h12, h21, Bool.false_eq_true, if_false, if_true, reduceIte]
                simp only [show (((0 : Int) = -1) = False) from by decide,
                  show (((0 : Int) = 0) = True) from by decide, if_false, if_true]
                by_cases hn : n1 = n
                · subst hn
                  simp [findHeader]
                · have hstep : findHeader (PathEntry.header n1 v2 ::
                      mergeNetlifyPathHeadersAux f bs ps) n =
                      findHeader (mergeNetlifyPathHeadersAux f bs ps) n := by
                    simp [findHeader, hn]
                  rw [hstep, ih bs ps hlbp hsb2 hsp2]
                  have hsc : findHeader (PathEntry.header n1 v2 :: ps) n =
                      findHeader ps n := by
                    simp [findHeader, hn]
                  rw [hsc]
                  exact matchOr_congr _ (by simp [findHeader, hn])

def hdrCacheControl : PathEntry := .header "Cache-Control".data "no-cache".data
def hdrXFrameDeny : PathEntry := .header "X-Frame-Options".data "DENY".data
def hdrXFrameAllow : PathEntry :=
  .header "X-Frame-Options".data "ALLOW-FROM https://example.com".data
def hdrXXSS : PathEntry := .header "X-XSS-Protection".data "1; mode=block".data
def hdrCacheControlX : PathEntry := .header "Cache-Control".data "x".data

def netlifyMergeBaseEx : NetlifyHeadersRawConfig :=
  ⟨['\t'], [.pathBlock "/d.html".data [hdrCacheControl, hdrXFrameDeny]]⟩
def netlifyMergePatchEx : NetlifyHeadersRawConfig :=
  ⟨['\t'], [.pathBlock "/d.html".data [hdrXFrameAllow, hdrXXSS]]⟩
def netlifyMergeResultEx : NetlifyHeadersRawConfig :=
  ⟨['\t'], [.pathBlock "/d.html".data [hdrCacheControl, hdrXFrameAllow, hdrXXSS]]⟩

def countHeadersNamed (n : Str) (es : List PathEntry) : Nat :=
  es.countP (fun e =>
    match e with
    | .header n2 _ => n2 == n
    | .comment _ => false)

/-- C6 (amended): *provided each shared block's entries are name-sorted
header lists* (the shape the builder emits; the merge is a sorted-merge walk
and needs it), entries are matched by header name only: the patch entry wins
for every name the patch mentions, unmatched base entries are kept, and patch
comments are discarded.  The claim's concrete example (which is name-sorted)
holds verbatim at the full-config level. -/
theorem C6_mergeNetlifyPathHeaders_name_keyed (base patch : List PathEntry)
    (hb : strictlySortedHeaders base = true)
    (hp : strictlySortedHeaders patch = true) :
    (∀ n, findHeader (mergeNetlifyPathHeaders base patch) n =
      (match findHeader patch n with
        | some v => some v
        | none => findHeader base n)) ∧
    mergeNetlifyHeadersConfig netlifyMergeBaseEx netlifyMergePatchEx =
      .ok netlifyMergeResultEx ∧
    mergeNetlifyPathHeaders [.header "A".data "1".data]
        [.comment "# c".data, .header "A".data "2".data] =
      [.header "A".data "2".data] := by
  refine ⟨fun n => mergeAux_findHeader _ base patch (le_refl _) hb hp n,
    by decide, by decide⟩

/-- Witness for C6 at the claim's example blocks. -/
theorem C6_mergeNetlifyPathHeaders_name_keyed_witness :
    findHeader
        (mergeNetlifyPathHeaders [hdrCacheControl, hdrXFrameDeny]
          [hdrXFrameAllow, hdrXXSS]) "X-Frame-Options".data =
      some "ALLOW-FROM https://example.com".data := by
  have h := (C6_mergeNetlifyPathHeaders_name_keyed
    [hdrCacheControl, hdrXFrameDeny] [hdrXFrameAllow, hdrXXSS]
    (by decide) (by decide)).1 "X-Frame-Options".data
  exact h.trans (by decide)

/-- C6 counterexample to the claim as stated (`for every merge …`): when the
shared base block is *not* name-sorted, the walk fails to match by name — the
patch's `Cache-Control: x` does not replace the base's
`Cache-Control: no-cache`; both survive, so the merged block carries the
`Cache-Control` name twice. -/
theorem C6_counterexample_unsorted_base :
    mergeNetlifyHeadersConfig
        ⟨['\t'], [.pathBlock "/d.html".data [hdrXFrameDeny, hdrCacheControl]]⟩
        ⟨['\t'], [.pathBlock "/d.html".data [hdrCacheControlX]]⟩ =
      .ok ⟨['\t'], [.pathBlock "/d.html".data
        [hdrCacheControlX, hdrXFrameDeny, hdrCacheControl]]⟩ ∧
    countHeadersNamed "Cache-Control".data
      [hdrCacheControlX, hdrXFrameDeny, hdrCacheControl] = 2 := by
  exact ⟨by decide, by decide⟩

/-! ## Claim C7 (Netlify round-trip) -/

/-- The lines an entry serializes to. -/
def linesOfEntry (iw : Str) : ConfigEntry → List Str
  | .emptyLine => [[]]
  | .comment t => [t]
  | .pathBlock p es => p :: es.map (serializePathEntry iw)

/-- Each line followed by a newline (the shape `serializeNetlifyHeadersConfig`
produces). -/
def joinLines : List Str → Str
  | [] => []
  | l :: ls => l ++ '\n' :: joinLines ls

theorem joinLines_append (a b : List Str) :
    joinLines (a ++ b) = joinLines a ++ joinLines b := by
  induction a with
  | nil => rfl
  | cons l ls ih => simp [joinLines, ih]

theorem joinWithSep_nl_append_nl :
    ∀ (ls : List Str), ls ≠ [] →
      joinWithSep ['\n'] ls ++ ['\n'] = joinLines ls := by
  intro ls
  induction ls with
  | nil => intro h; cases h rfl
  | cons l rest ih =>
    intro _
    cases rest with
    | nil => simp [joinWithSep, joinLines]
    | cons l2 r2 =>
      have h2 := ih (by simp)
      show joinWithSep ['\n'] (l :: l2 :: r2) ++ ['\n'] =
        l ++ '\n' :: joinLines (l2 :: r2)
      rw [← h2]
      show (l ++ ['\n'] ++ joinWithSep ['\n'] (l2 :: r2)) ++ ['\n'] = _
      simp [List.append_assoc]

theorem serialize_eq_joinLines (cfg : NetlifyHeadersRawConfig)
    (hne : ∀ p es, ConfigEntry.pathBlock p es ∈ cfg.entries → es ≠ []) :
    serializeNetlifyHeadersConfig cfg =
      joinLines (cfg.entries.flatMap (linesOfEntry cfg.indentWith)) := by
  obtain ⟨iw, entries⟩ := cfg
  simp only [serializeNetlifyHeadersConfig] at *
  suffices h : ∀ (E : List ConfigEntry) (acc : Str),
      (∀ p es, ConfigEntry.pathBlock p es ∈ E → es ≠ []) →
      E.foldl
        (fun result entry =>
          match entry with
          | .emptyLine => result ++ ['\n']
          | .comment text => result ++ text ++ ['\n']
          | .pathBlock p es =>
            result ++ p ++ '\n' ::
              joinWithSep ['\n'] (es.map (serializePathEntry iw)) ++ ['\n'])
        acc = acc ++ joinLines (E.flatMap (linesOfEntry iw)) by
    simpa using h entries [] hne
  intro E
  induction E with
  | nil => intro acc _; simp [joinLines]
  | cons e rest ih =>
    intro acc hwf
    have hrest : ∀ p es, ConfigEntry.pathBlock p es ∈ rest → es ≠ [] := by
      intro p es hmem
      exact hwf p es (by simp [hmem])
    cases e with
    | emptyLine =>
      simp only [List.foldl_cons, List.flatMap_cons, joinLines_append]
      rw [ih _ hrest]
      simp [linesOfEntry, joinLines]
    | comment t =>
      simp only [List.foldl_cons, List.flatMap_cons, joinLines_append]
      rw [ih _ hrest]
      simp [linesOfEntry, joinLines]
    | pathBlock p es =>
      have hnonempty : es ≠ [] := hwf p es (by simp)
      have hmap : es.map (serializePathEntry iw) ≠ [] := by
        simpa using hnonempty
      simp only [List.foldl_cons, List.flatMap_cons, joinLines_append]
      rw [ih _ hrest]
      simp only [linesOfEntry, joinLines]
      rw [← joinWithSep_nl_append_nl _ hmap]
      simp [List.append_assoc]

theorem splitOnChar_ne_nil (sep : Char) : ∀ s : Str, splitOnChar sep s ≠ [] := by
  intro s
  induction s with
  | nil => simp [splitOnChar]
  | cons c cs ih =>
    simp only [splitOnChar]
    split
    · simp
    · cases h : splitOnChar sep cs with
      | nil => simp
      | cons l ls => simp

theorem splitOnChar_line (r : Str) :
    ∀ l : Str, ('\n' ∉ l) →
      splitOnChar '\n' (l ++ '\n' :: r) = l :: splitOnChar '\n' r := by
  intro l
  induction l with
  | nil => intro _; simp [splitOnChar]
  | cons c cs ih =>
    intro hnl
    have hc : c ≠ '\n' := by
      intro he
      exact hnl (by simp [he])
    have hcs : '\n' ∉ cs := fun hm => hnl (by simp [hm])
    show splitOnChar '\n' (c :: (cs ++ '\n' :: r)) = (c :: cs) :: splitOnChar '\n' r
    simp only [splitOnChar, hc, if_false, reduceIte]
    rw [ih hcs]

theorem splitOnChar_joinLines :
    ∀ ls : List Str, (∀ l ∈ ls, '\n' ∉ l) →
      splitOnChar '\n' (joinLines ls) = ls ++ [[]] := by
  intro ls
  induction ls with
  | nil => intro _; simp [joinLines, splitOnChar]
  | cons l rest ih =>
    intro h
    simp only [joinLines]
    rw [splitOnChar_line _ l (h l (by simp))]
    rw [ih (fun l2 hl2 => h l2 (by simp [hl2]))]
    simp

/-- No-newline side conditions used by the round-trip. -/
def noNl (s : Str) : Bool := s.all (fun c => c ≠ '\n')

def headNotSpaceB : Str → Bool
  | [] => true
  | c :: _ => !isSpaceJS c

def wfPathEntry : PathEntry → Bool
  | .comment t => beginsWith ['#'] t && noNl t && noTerm (t.drop 1)
  | .header n v =>
    !n.isEmpty && n.all isHeaderNameChar && noNl v && headNotSpaceB v &&
      noTerm v

def wfEntry : ConfigEntry → Bool
  | .emptyLine => true
  | .comment t => beginsWith ['#'] t && noNl t
  | .pathBlock p es =>
    beginsWith ['/'] p && noNl p && !es.isEmpty && es.all wfPathEntry

def hasBlockB (entries : List ConfigEntry) : Bool :=
  entries.any (fun e =>
    match e with
    | .pathBlock _ _ => true
    | _ => false)

def wfIndent (iw : Str) : Bool :=
  !iw.isEmpty && iw.all (fun c => isSpaceJS c && c ≠ '\n')

/-- The configs on which the parse/serialize round-trip can hold: every path
block non-empty and syntactically serializable-then-reparsable (header names
from the `headerRegex` name class, values and block comments free of the line
terminators that `.*$` cannot cross, values not starting with whitespace),
comments starting with `#`, a whitespace (newline-free) indent string, and
the default `"\t"` indent whenever no block exists to infer it from. -/
def wfNetlifyConfig (cfg : NetlifyHeadersRawConfig) : Bool :=
  wfIndent cfg.indentWith && cfg.entries.all wfEntry &&
    (hasBlockB cfg.entries || cfg.indentWith = ['\t'])

theorem isHeaderNameChar_props (c : Char) (h : isHeaderNameChar c = true) :
    isSpaceJS c = false ∧ c ≠ '#' ∧ c ≠ '/' := by
  have h2 : (97 ≤ c.toNat ∧ c.toNat ≤ 122) ∨ (65 ≤ c.toNat ∧ c.toNat ≤ 90) ∨
      (48 ≤ c.toNat ∧ c.toNat ≤ 57) ∨ c.toNat = 95 ∨ c.toNat = 45 := by
    simp only [isHeaderNameChar, Bool.or_eq_true, Bool.and_eq_true,
      decide_eq_true_eq] at h
    rcases h with (((h | h) | h) | h) | h
    · exact Or.inl h
    · exact Or.inr (Or.inl h)
    · exact Or.inr (Or.inr (Or.inl h))
    · subst h
      exact Or.inr (Or.inr (Or.inr (Or.inl rfl)))
    · subst h
      exact Or.inr (Or.inr (Or.inr (Or.inr rfl)))
  refine ⟨?_, ?_, ?_⟩
  · cases hsp : isSpaceJS c
    · rfl
    · exfalso
      simp only [isSpaceJS, Bool.or_eq_true, Bool.and_eq_true,
        decide_eq_true_eq] at hsp
      omega
  · intro he
    subst he
    rw [show ('#' : Char).toNat = 35 from rfl] at h2
    omega
  · intro he
    subst he
    rw [show ('/' : Char).toNat = 47 from rfl] at h2
    omega

theorem takeWhile_append_all (p : Char → Bool) :
    ∀ (xs ys : Str), (∀ c ∈ xs, p c = true) →
      (∀ c, ys.head? = some c → p c = false) →
      (xs ++ ys).takeWhile p = xs ∧ (xs ++ ys).dropWhile p = ys := by
  intro xs
  induction xs with
  | nil =>
    intro ys _ hy
    cases ys with
    | nil => simp
    | cons c cs =>
      have hc := hy c rfl
      simp [List.takeWhile, List.dropWhile, hc]
  | cons x xs ih =>
    intro ys hx hy
    have hpx : p x = true := hx x (by simp)
    have hih := ih ys (fun c hc => hx c (by simp [hc])) hy
    simp [List.takeWhile, List.dropWhile, hpx, hih.1, hih.2]

theorem dropWhile_head_not (p : Char → Bool) (v : Str)
    (hv : ∀ c, v.head? = some c → p c = false) : v.dropWhile p = v := by
  cases v with
  | nil => rfl
  | cons c cs =>
    have hc := hv c rfl
    simp [List.dropWhile, hc]

theorem commentLineParse_inBlock (iw t2 : Str)
    (hiw : ∀ c ∈ iw, isSpaceJS c = true) (ht : noTerm t2 = true) :
    commentLineParse (iw ++ '#' :: t2) = some (iw, '#' :: t2) := by
  have h := takeWhile_append_all isSpaceJS iw ('#' :: t2) hiw
    (by
      intro c hc
      simp only [List.head?] at hc
      cases hc
      rfl)
  simp [commentLineParse, h.1, h.2, ht]

theorem headerLine_parses (iw n v : Str) (hiw : ∀ c ∈ iw, isSpaceJS c = true)
    (hn : n ≠ []) (hnc : ∀ c ∈ n, isHeaderNameChar c = true)
    (htv : noTerm v = true)
    (hv : ∀ c, v.head? = some c → isSpaceJS c = false) :
    commentLineParse (iw ++ (n ++ ':' :: ' ' :: v)) = none ∧
    headerLineParse (iw ++ (n ++ ':' :: ' ' :: v)) = some (iw, n, v) := by
  obtain ⟨c0, n2, rfl⟩ : ∃ c0 n2, n = c0 :: n2 := by
    cases n with
    | nil => exact absurd rfl hn
    | cons c0 n2 => exact ⟨c0, n2, rfl⟩
  have hc0 := hnc c0 (by simp)
  have hprops := isHeaderNameChar_props c0 hc0
  have hsplit := takeWhile_append_all isSpaceJS iw ((c0 :: n2) ++ ':' :: ' ' :: v)
    hiw (by
      intro c hc
      simp only [List.cons_append, List.head?] at hc
      cases hc
      exact hprops.1)
  have hname := takeWhile_append_all isHeaderNameChar (c0 :: n2) (':' :: ' ' :: v)
    hnc (by
      intro c hc
      simp only [List.head?] at hc
      cases hc
      rfl)
  constructor
  · have hne : ¬ c0 = '#' := hprops.2.1
    unfold commentLineParse
    rw [hsplit.2]
    simp only [List.cons_append]
    split
    · rename_i heq
      exact absurd (List.head_eq_of_cons_eq heq) hne
    · rfl
  · simp only [headerLineParse, hsplit.1, hsplit.2]
    rw [hname.1, hname.2]
    have hsp : (' ' :: v).dropWhile isSpaceJS = v := by
      rw [show (' ' :: v).dropWhile isSpaceJS = v.dropWhile isSpaceJS from rfl]
      exact dropWhile_head_not isSpaceJS v hv
    simp [hn, hsp, htv]

theorem enumFrom_append :
    ∀ (xs ys : List β) (k : Nat),
      enumFrom k (xs ++ ys) = enumFrom k xs ++ enumFrom (k + xs.length) ys := by
  intro xs
  induction xs with
  | nil => intro ys k; simp [enumFrom]
  | cons x xs ih =>
    intro ys k
    show (k, x) :: enumFrom (k + 1) (xs ++ ys) =
      (k, x) :: (enumFrom (k + 1) xs ++ enumFrom (k + (xs.length + 1)) ys)
    rw [ih]
    have h2 : k + 1 + xs.length = k + (xs.length + 1) := by omega
    rw [h2]

theorem parseNetlifyLines_append :
    ∀ (xs ys : List (Nat × Str)) (ctx : ParseCtx),
      parseNetlifyLines (xs ++ ys) ctx =
        match parseNetlifyLines xs ctx with
        | .error e => .error e
        | .ok c2 => parseNetlifyLines ys c2 := by
  intro xs
  induction xs with
  | nil => intro ys ctx; rfl
  | cons q rest ih =>
    intro ys ctx
    obtain ⟨n, line⟩ := q
    simp only [List.cons_append, parseNetlifyLines]
    cases hstep : parseNetlifyStep n line ctx with
    | error e => rfl
    | ok ctx2 => exact ih ys ctx2

theorem beginsWith_single {c : Char} {t : Str} (h : beginsWith [c] t = true) :
    ∃ t2, t = c :: t2 := by
  cases t with
  | nil => simp [beginsWith] at h
  | cons x xs =>
    simp only [beginsWith, Bool.and_eq_true, beq_iff_eq] at h
    exact ⟨xs, by rw [h.1]⟩

/-- Processing the serialized entry lines of a block body from an open-block
state appends them to the current block. -/
theorem parseBlockLines (iw : Str) (hiwAll : ∀ c ∈ iw, isSpaceJS c = true)
    (hiwNe : iw ≠ []) :
    ∀ (es : List PathEntry) (k : Nat) (p : Str) (acc : List PathEntry)
      (done : List ConfigEntry),
      es.all wfPathEntry = true →
      parseNetlifyLines (enumFrom k (es.map (serializePathEntry iw)))
        ⟨some iw, done, some (p, acc)⟩ = .ok ⟨some iw, done, some (p, acc ++ es)⟩ := by
  intro es
  induction es with
  | nil => intro k p acc done _; simp [enumFrom, parseNetlifyLines]
  | cons e rest ih =>
    intro k p acc done hwf
    simp only [List.all_cons, Bool.and_eq_true] at hwf
    obtain ⟨hwfe, hwfr⟩ := hwf
    simp only [List.map_cons, enumFrom, parseNetlifyLines]
    have hstep : parseNetlifyStep k (serializePathEntry iw e)
        ⟨some iw, done, some (p, acc)⟩ =
        .ok ⟨some iw, done, some (p, acc ++ [e])⟩ := by
      cases e with
      | comment t =>
        simp only [wfPathEntry, Bool.and_eq_true] at hwfe
        obtain ⟨t2, rfl⟩ := beginsWith_single hwfe.1.1
        simp only [parseNetlifyStep, processPathLine, serializePathEntry]
        rw [commentLineParse_inBlock iw t2 hiwAll (by simpa using hwfe.2)]
        simp only [pushEntryStep, pushToCurrent]
        simp [hiwNe]
      | header n v =>
        simp only [wfPathEntry, Bool.and_eq_true] at hwfe
        obtain ⟨⟨⟨⟨hA, hB⟩, hC⟩, hD⟩, hE⟩ := hwfe
        have hn : n ≠ [] := by
          cases n with
          | nil => simp at hA
          | cons c2 cs => simp
        have hnc : ∀ c ∈ n, isHeaderNameChar c = true := by
          simpa [List.all_eq_true] using hB
        have hv : ∀ c, v.head? = some c → isSpaceJS c = false := by
          intro c hc
          cases v with
          | nil => simp at hc
          | cons c2 cs =>
            simp only [List.head?] at hc
            cases hc
            simpa [headNotSpaceB] using hD
        have hline := headerLine_parses iw n v hiwAll hn hnc hE hv
        have hshape : serializePathEntry iw (.header n v) =
            iw ++ (n ++ ':' :: ' ' :: v) := by
          simp [serializePathEntry, List.append_assoc]
        simp only [parseNetlifyStep, processPathLine, hshape]
        rw [hline.1, hline.2]
        simp only [pushEntryStep, pushToCurrent]
        simp [hiwNe]
    rw [hstep]
    have hrest := ih (k + 1) p (acc ++ [e]) done hwfr
    show parseNetlifyLines (enumFrom (k + 1) (List.map (serializePathEntry iw) rest))
      ⟨some iw, done, some (p, acc ++ [e])⟩ =
      Except.ok ⟨some iw, done, some (p, acc ++ e :: rest)⟩
    rw [hrest]
    simp

def pendOf : Option (Str × List PathEntry) → List ConfigEntry
  | none => []
  | some (p, es) => [.pathBlock p es]

/-- The entries the parser has flushed after processing a list of config
entries from a given open-block state, together with the block still open at
the end. -/
def flushedEntries : Option (Str × List PathEntry) → List ConfigEntry →
    List ConfigEntry × Option (Str × List PathEntry)
  | st, [] => ([], st)
  | st, .pathBlock p es :: rest =>
    (pendOf st ++ (flushedEntries (some (p, es)) rest).1,
      (flushedEntries (some (p, es)) rest).2)
  | st, .comment t :: rest =>
    (pendOf st ++ .comment t :: (flushedEntries none rest).1,
      (flushedEntries none rest).2)
  | st, .emptyLine :: rest =>
    (pendOf st ++ .emptyLine :: (flushedEntries none rest).1,
      (flushedEntries none rest).2)

theorem step_empty_closed (n : Nat) (iwOpt : Option Str) (done : List ConfigEntry) :
    parseNetlifyStep n [] ⟨iwOpt, done, none⟩ =
      .ok ⟨iwOpt, done ++ [.emptyLine], none⟩ := rfl

theorem step_empty_open (n : Nat) (iwOpt : Option Str) (done : List ConfigEntry)
    (p : Str) (acc : List PathEntry) (hacc : acc ≠ []) :
    parseNetlifyStep n [] ⟨iwOpt, done, some (p, acc)⟩ =
      .ok ⟨iwOpt, done ++ [.pathBlock p acc, .emptyLine], none⟩ := by
  cases acc with
  | nil => exact absurd rfl hacc
  | cons a as =>
    calc parseNetlifyStep n [] ⟨iwOpt, done, some (p, a :: as)⟩
        = .ok ⟨iwOpt, (done ++ [ConfigEntry.pathBlock p (a :: as)]) ++
            [ConfigEntry.emptyLine], none⟩ := rfl
      _ = .ok ⟨iwOpt, done ++ [ConfigEntry.pathBlock p (a :: as),
            ConfigEntry.emptyLine], none⟩ := by simp

theorem step_comment_closed (n : Nat) (iwOpt : Option Str)
    (done : List ConfigEntry) (t2 : Str) :
    parseNetlifyStep n ('#' :: t2) ⟨iwOpt, done, none⟩ =
      .ok ⟨iwOpt, done ++ [.comment ('#' :: t2)], none⟩ := rfl

theorem step_comment_open (n : Nat) (iw : Str) (done : List ConfigEntry)
    (t2 p : Str) (acc : List PathEntry) (hacc : acc ≠ []) :
    parseNetlifyStep n ('#' :: t2) ⟨some iw, done, some (p, acc)⟩ =
      .ok ⟨some iw, done ++ [.pathBlock p acc, .comment ('#' :: t2)], none⟩ := by
  cases acc with
  | nil => exact absurd rfl hacc
  | cons a as =>
    rw [show (done ++ [ConfigEntry.pathBlock p (a :: as),
        ConfigEntry.comment ('#' :: t2)]) =
      (done ++ [ConfigEntry.pathBlock p (a :: as)]) ++
        [ConfigEntry.comment ('#' :: t2)] from by simp]
    by_cases hterm : noTerm t2 = true
    · have hcp : commentLineParse ('#' :: t2) = some ([], '#' :: t2) := by
        have hd : List.dropWhile isSpaceJS ('#' :: t2) = '#' :: t2 := rfl
        have ht : List.takeWhile isSpaceJS ('#' :: t2) = [] := rfl
        simp [commentLineParse, hd, ht, hterm]
      simp only [parseNetlifyStep, processPathLine, hcp]
      rfl
    · have hcp : commentLineParse ('#' :: t2) = none := by
        have hd : List.dropWhile isSpaceJS ('#' :: t2) = '#' :: t2 := rfl
        simp [commentLineParse, hd, hterm]
      have hhp : headerLineParse ('#' :: t2) = none := by
        have hd : List.dropWhile isSpaceJS ('#' :: t2) = '#' :: t2 := rfl
        have htk : List.takeWhile isHeaderNameChar ('#' :: t2) = [] := rfl
        simp [headerLineParse, hd, htk]
      simp only [parseNetlifyStep, processPathLine, hcp, hhp]
      rfl

theorem step_path_closed (n : Nat) (iwOpt : Option Str) (done : List ConfigEntry)
    (p2 : Str) :
    parseNetlifyStep n ('/' :: p2) ⟨iwOpt, done, none⟩ =
      .ok ⟨iwOpt, done, some ('/' :: p2, [])⟩ := rfl

theorem step_path_open (n : Nat) (iwOpt : Option Str) (done : List ConfigEntry)
    (p2 p : Str) (acc : List PathEntry) (hacc : acc ≠ []) :
    parseNetlifyStep n ('/' :: p2) ⟨iwOpt, done, some (p, acc)⟩ =
      .ok ⟨iwOpt, done ++ [.pathBlock p acc], some ('/' :: p2, [])⟩ := by
  cases acc with
  | nil => exact absurd rfl hacc
  | cons a as => rfl

theorem step_blockEntry_none (iw : Str) (hiwAll : ∀ c ∈ iw, isSpaceJS c = true)
    (hiwNe : iw ≠ []) (e : PathEntry) (hwfe : wfPathEntry e = true)
    (k : Nat) (p : Str) (acc : List PathEntry) (done : List ConfigEntry) :
    parseNetlifyStep k (serializePathEntry iw e) ⟨none, done, some (p, acc)⟩ =
      .ok ⟨some iw, done, some (p, acc ++ [e])⟩ := by
  cases e with
  | comment t =>
    simp only [wfPathEntry, Bool.and_eq_true] at hwfe
    obtain ⟨t2, rfl⟩ := beginsWith_single hwfe.1.1
    simp only [parseNetlifyStep, processPathLine, serializePathEntry]
    rw [commentLineParse_inBlock iw t2 hiwAll (by simpa using hwfe.2)]
    simp only [pushEntryStep, pushToCurrent]
    simp [hiwNe]
  | header n v =>
    simp only [wfPathEntry, Bool.and_eq_true] at hwfe
    obtain ⟨⟨⟨⟨hA, hB⟩, hC⟩, hD⟩, hE⟩ := hwfe
    have hn : n ≠ [] := by
      cases n with
      | nil => simp at hA
      | cons c2 cs => simp
    have hnc : ∀ c ∈ n, isHeaderNameChar c = true := by
      simpa [List.all_eq_true] using hB
    have hv : ∀ c, v.head? = some c → isSpaceJS c = false := by
      intro c hc
      cases v with
      | nil => simp at hc
      | cons c2 cs =>
        simp only [List.head?] at hc
        cases hc
        simpa [headNotSpaceB] using hD
    have hline := headerLine_parses iw n v hiwAll hn hnc hE hv
    have hshape : serializePathEntry iw (.header n v) =
        iw ++ (n ++ ':' :: ' ' :: v) := by
      simp [serializePathEntry, List.append_assoc]
    simp only [parseNetlifyStep, processPathLine, hshape]
    rw [hline.1, hline.2]
    simp only [pushEntryStep, pushToCurrent]
    simp [hiwNe]

theorem parseBlockLinesFromNone (iw : Str) (hiwAll : ∀ c ∈ iw, isSpaceJS c = true)
    (hiwNe : iw ≠ []) (es : List PathEntry) (k : Nat) (p : Str)
    (done : List ConfigEntry) (hwf : es.all wfPathEntry = true) (hne : es ≠ []) :
    parseNetlifyLines (enumFrom k (es.map (serializePathEntry iw)))
      ⟨none, done, some (p, [])⟩ = .ok ⟨some iw, done, some (p, es)⟩ := by
  cases es with
  | nil => exact absurd rfl hne
  | cons e rest =>
    simp only [List.all_cons, Bool.and_eq_true] at hwf
    simp only [List.map_cons, enumFrom, parseNetlifyLines]
    rw [step_blockEntry_none iw hiwAll hiwNe e hwf.1 k p [] done]
    have hrest := parseBlockLines iw hiwAll hiwNe rest (k + 1) p [e] done hwf.2
    exact hrest.trans (by simp)

theorem flushedEntries_concat :
    ∀ (E : List ConfigEntry) (st : Option (Str × List PathEntry)),
      (flushedEntries st E).1 ++ pendOf (flushedEntries st E).2 = pendOf st ++ E := by
  intro E
  induction E with
  | nil => intro st; simp [flushedEntries]
  | cons e rest ih =>
    intro st
    cases e with
    | pathBlock p es =>
      have h := ih (some (p, es))
      simp only [flushedEntries, List.append_assoc, h]
      simp [pendOf]
    | comment t =>
      have h2 : (flushedEntries none rest).1 ++
          pendOf (flushedEntries none rest).2 = rest := by
        rw [ih none]
        rfl
      simp only [flushedEntries, List.append_assoc, List.cons_append, h2]
    | emptyLine =>
      have h2 : (flushedEntries none rest).1 ++
          pendOf (flushedEntries none rest).2 = rest := by
        rw [ih none]
        rfl
      simp only [flushedEntries, List.append_assoc, List.cons_append, h2]

theorem flushedEntries_open_sound :
    ∀ (E : List ConfigEntry) (st : Option (Str × List PathEntry)) (p : Str)
      (acc : List PathEntry),
      (flushedEntries st E).2 = some (p, acc) →
      st = some (p, acc) ∨ ConfigEntry.pathBlock p acc ∈ E := by
  intro E
  induction E with
  | nil =>
    intro st p acc h
    simp only [flushedEntries] at h
    exact Or.inl h
  | cons e rest ih =>
    intro st p acc h
    cases e with
    | pathBlock p2 es2 =>
      simp only [flushedEntries] at h
      rcases ih (some (p2, es2)) p acc h with h2 | h2
      · cases h2
        exact Or.inr (by simp)
      · exact Or.inr (by simp [h2])
    | comment t =>
      simp only [flushedEntries] at h
      rcases ih none p acc h with h2 | h2
      · simp at h2
      · exact Or.inr (by simp [h2])
    | emptyLine =>
      simp only [flushedEntries] at h
      rcases ih none p acc h with h2 | h2
      · simp at h2
      · exact Or.inr (by simp [h2])

/-- The parse loop over the serialized lines of a list of well-formed config
entries: each entry lands in the context in order, the last block (if any)
remaining open. -/
theorem parseEntriesLines (iw : Str) (hiwAll : ∀ c ∈ iw, isSpaceJS c = true)
    (hiwNe : iw ≠ []) :
    ∀ (E : List ConfigEntry) (k : Nat) (done : List ConfigEntry)
      (st : Option (Str × List PathEntry)) (iwOpt : Option Str),
      E.all wfEntry = true →
      (∀ p acc, st = some (p, acc) → acc ≠ [] ∧ iwOpt = some iw) →
      (iwOpt = none ∨ iwOpt = some iw) →
      parseNetlifyLines (enumFrom k (E.flatMap (linesOfEntry iw)))
          ⟨iwOpt, done, st⟩ =
        .ok ⟨(if hasBlockB E then some iw else iwOpt),
          done ++ (flushedEntries st E).1, (flushedEntries st E).2⟩ := by
  intro E
  induction E with
  | nil =>
    intro k done st iwOpt _ _ _
    simp [parseNetlifyLines, enumFrom, flushedEntries, hasBlockB]
  | cons e rest ih =>
    intro k done st iwOpt hwf hst hiw
    simp only [List.all_cons, Bool.and_eq_true] at hwf
    obtain ⟨hwfe, hwfr⟩ := hwf
    rw [List.flatMap_cons, enumFrom_append, parseNetlifyLines_append]
    cases e with
    | emptyLine =>
      cases st with
      | none =>
        have h1 : parseNetlifyLines (enumFrom k (linesOfEntry iw .emptyLine))
            ⟨iwOpt, done, none⟩ =
            .ok ⟨iwOpt, done ++ [.emptyLine], none⟩ := by
          simp only [linesOfEntry, enumFrom, parseNetlifyLines]
          rw [step_empty_closed]
        rw [h1]
        have h2 := ih (k + (linesOfEntry iw ConfigEntry.emptyLine).length)
          (done ++ [.emptyLine]) none iwOpt hwfr
          (by intro p acc h; cases h) hiw
        exact h2.trans (by simp [flushedEntries, hasBlockB, pendOf])
      | some pa =>
        obtain ⟨p, acc⟩ := pa
        obtain ⟨hacc, hiwSome⟩ := hst p acc rfl
        subst hiwSome
        have h1 : parseNetlifyLines (enumFrom k (linesOfEntry iw .emptyLine))
            ⟨some iw, done, some (p, acc)⟩ =
            .ok ⟨some iw, done ++ [.pathBlock p acc, .emptyLine], none⟩ := by
          simp only [linesOfEntry, enumFrom, parseNetlifyLines]
          rw [step_empty_open _ _ _ _ _ hacc]
        rw [h1]
        have h2 := ih (k + (linesOfEntry iw ConfigEntry.emptyLine).length)
          (done ++ [.pathBlock p acc, .emptyLine]) none (some iw) hwfr
          (by intro p2 acc2 h; cases h) (Or.inr rfl)
        exact h2.trans (by simp [flushedEntries, hasBlockB, pendOf])
    | comment t =>
      simp only [wfEntry, Bool.and_eq_true] at hwfe
      obtain ⟨t2, rfl⟩ := beginsWith_single hwfe.1
      cases st with
      | none =>
        have h1 : parseNetlifyLines
            (enumFrom k (linesOfEntry iw (.comment ('#' :: t2))))
            ⟨iwOpt, done, none⟩ =
            .ok ⟨iwOpt, done ++ [.comment ('#' :: t2)], none⟩ := by
          simp only [linesOfEntry, enumFrom, parseNetlifyLines]
          rw [step_comment_closed]
        rw [h1]
        have h2 := ih (k + (linesOfEntry iw (ConfigEntry.comment ('#' :: t2))).length)
          (done ++ [.comment ('#' :: t2)]) none iwOpt hwfr
          (by intro p acc h; cases h) hiw
        exact h2.trans (by simp [flushedEntries, hasBlockB, pendOf])
      | some pa =>
        obtain ⟨p, acc⟩ := pa
        obtain ⟨hacc, hiwSome⟩ := hst p acc rfl
        subst hiwSome
        have h1 : parseNetlifyLines
            (enumFrom k (linesOfEntry iw (.comment ('#' :: t2))))
            ⟨some iw, done, some (p, acc)⟩ =
            .ok ⟨some iw,
              done ++ [.pathBlock p acc, .comment ('#' :: t2)], none⟩ := by
          simp only [linesOfEntry, enumFrom, parseNetlifyLines]
          rw [step_comment_open _ _ _ _ _ _ hacc]
        rw [h1]
        have h2 := ih (k + (linesOfEntry iw (ConfigEntry.comment ('#' :: t2))).length)
          (done ++ [.pathBlock p acc, .comment ('#' :: t2)]) none (some iw) hwfr
          (by intro p2 acc2 h; cases h) (Or.inr rfl)
        exact h2.trans (by simp [flushedEntries, hasBlockB, pendOf])
    | pathBlock p es =>
      simp only [wfEntry, Bool.and_eq_true] at hwfe
      obtain ⟨⟨⟨hP, hPn⟩, hEne⟩, hEwf⟩ := hwfe
      obtain ⟨p2, rfl⟩ := beginsWith_single hP
      have hesne : es ≠ [] := by
        cases es with
        | nil => simp at hEne
        | cons x xs => simp
      cases st with
      | none =>
        rcases hiw with hiw | hiw <;> subst hiw
        · have h1 : parseNetlifyLines
              (enumFrom k (linesOfEntry iw (.pathBlock ('/' :: p2) es)))
              ⟨none, done, none⟩ =
              .ok ⟨some iw, done, some ('/' :: p2, es)⟩ := by
            simp only [linesOfEntry, enumFrom, parseNetlifyLines]
            rw [step_path_closed]
            exact parseBlockLinesFromNone iw hiwAll hiwNe es (k + 1) ('/' :: p2)
              done hEwf hesne
          rw [h1]
          have h2 := ih (k + (linesOfEntry iw (ConfigEntry.pathBlock ('/' :: p2) es)).length)
            done (some ('/' :: p2, es)) (some iw) hwfr
            (by
              intro p3 acc3 h
              cases h
              exact ⟨hesne, rfl⟩) (Or.inr rfl)
          exact h2.trans (by simp [flushedEntries, hasBlockB, pendOf])
        · have h1 : parseNetlifyLines
              (enumFrom k (linesOfEntry iw (.pathBlock ('/' :: p2) es)))
              ⟨some iw, done, none⟩ =
              .ok ⟨some iw, done, some ('/' :: p2, es)⟩ := by
            simp only [linesOfEntry, enumFrom, parseNetlifyLines]
            rw [step_path_closed]
            exact (parseBlockLines iw hiwAll hiwNe es (k + 1) ('/' :: p2) []
              done hEwf).trans (by simp)
          rw [h1]
          have h2 := ih (k + (linesOfEntry iw (ConfigEntry.pathBlock ('/' :: p2) es)).length)
            done (some ('/' :: p2, es)) (some iw) hwfr
            (by
              intro p3 acc3 h
              cases h
              exact ⟨hesne, rfl⟩) (Or.inr rfl)
          exact h2.trans (by simp [flushedEntries, hasBlockB, pendOf])
      | some pa =>
        obtain ⟨p0, acc0⟩ := pa
        obtain ⟨hacc0, hiwSome⟩ := hst p0 acc0 rfl
        subst hiwSome
        have h1 : parseNetlifyLines
            (enumFrom k (linesOfEntry iw (.pathBlock ('/' :: p2) es)))
            ⟨some iw, done, some (p0, acc0)⟩ =
            .ok ⟨some iw, done ++ [.pathBlock p0 acc0], some ('/' :: p2, es)⟩ := by
          simp only [linesOfEntry, enumFrom, parseNetlifyLines]
          rw [step_path_open _ _ _ _ _ _ hacc0]
          have hb := parseBlockLines iw hiwAll hiwNe es (k + 1) ('/' :: p2) []
            (done ++ [ConfigEntry.pathBlock p0 acc0]) hEwf
          simp only [List.nil_append] at hb
          exact hb
        rw [h1]
        have h2 := ih (k + (linesOfEntry iw (ConfigEntry.pathBlock ('/' :: p2) es)).length)
          (done ++ [.pathBlock p0 acc0]) (some ('/' :: p2, es)) (some iw) hwfr
          (by
            intro p3 acc3 h
            cases h
            exact ⟨hesne, rfl⟩) (Or.inr rfl)
        exact h2.trans (by simp [flushedEntries, hasBlockB, pendOf])

theorem noNl_not_mem {s : Str} (h : noNl s = true) : '\n' ∉ s := by
  simp only [noNl, List.all_eq_true, decide_eq_true_eq] at h
  intro hm
  exact h _ hm rfl

theorem wfEntry_block_ne {E : List ConfigEntry} (h : E.all wfEntry = true)
    {p : Str} {es : List PathEntry} (hm : ConfigEntry.pathBlock p es ∈ E) :
    es ≠ [] := by
  simp only [List.all_eq_true] at h
  have h2 := h _ hm
  intro he
  subst he
  simp [wfEntry] at h2

theorem serializePathEntry_noNl {iw : Str} (hiw : wfIndent iw = true)
    {e : PathEntry} (he : wfPathEntry e = true) :
    '\n' ∉ serializePathEntry iw e := by
  have hiwc : ∀ c ∈ iw, c ≠ '\n' := by
    simp only [wfIndent, Bool.and_eq_true, List.all_eq_true, Bool.and_eq_true,
      decide_eq_true_eq] at hiw
    intro c hc
    exact (hiw.2 c hc).2
  cases e with
  | comment t =>
    simp only [wfPathEntry, Bool.and_eq_true] at he
    have ht := noNl_not_mem he.1.2
    simp only [serializePathEntry, List.mem_append]
    rintro (hc | hc)
    · exact hiwc _ hc rfl
    · exact ht hc
  | header n v =>
    simp only [wfPathEntry, Bool.and_eq_true] at he
    obtain ⟨⟨⟨⟨hne, hname⟩, hv⟩, _⟩, _⟩ := he
    have hvn := noNl_not_mem hv
    have hnn : ∀ c ∈ n, c ≠ '\n' := by
      simp only [List.all_eq_true] at hname
      intro c hc hceq
      have hsp := (isHeaderNameChar_props c (hname c hc)).1
      subst hceq
      simp [isSpaceJS] at hsp
    simp only [serializePathEntry, List.mem_append]
    rintro (((hc | hc) | hc) | hc)
    · exact hiwc _ hc rfl
    · exact hnn _ hc rfl
    · exact absurd hc (by decide)
    · exact hvn hc

theorem linesOfEntry_noNl {iw : Str} (hiw : wfIndent iw = true)
    {e : ConfigEntry} (he : wfEntry e = true) :
    ∀ l ∈ linesOfEntry iw e, '\n' ∉ l := by
  cases e with
  | emptyLine =>
    intro l hl
    simp only [linesOfEntry, List.mem_singleton] at hl
    subst hl
    simp
  | comment t =>
    intro l hl
    simp only [linesOfEntry, List.mem_singleton] at hl
    subst hl
    simp only [wfEntry, Bool.and_eq_true] at he
    exact noNl_not_mem he.2
  | pathBlock p es =>
    intro l hl
    simp only [wfEntry, Bool.and_eq_true] at he
    obtain ⟨⟨⟨hP, hPn⟩, _⟩, hEwf⟩ := he
    simp only [linesOfEntry, List.mem_cons, List.mem_map] at hl
    rcases hl with rfl | ⟨e2, he2, rfl⟩
    · exact noNl_not_mem hPn
    · refine serializePathEntry_noNl hiw ?_
      simp only [List.all_eq_true] at hEwf
      exact hEwf e2 he2

/-- The final empty line produced by `split('\n')` on a newline-terminated
serialization: it closes any open block and appends one trailing empty-line
entry. -/
theorem parse_finish (iwOpt : Option Str) (F : List ConfigEntry)
    (st : Option (Str × List PathEntry))
    (hacc : ∀ p acc, st = some (p, acc) → acc ≠ []) (k : Nat) :
    parseNetlifyLines (enumFrom k [[]]) ⟨iwOpt, F, st⟩ =
      .ok ⟨iwOpt, F ++ pendOf st ++ [.emptyLine], none⟩ := by
  cases st with
  | none =>
    simp only [enumFrom, parseNetlifyLines]
    rw [step_empty_closed]
    simp [parseNetlifyLines, pendOf]
  | some pa =>
    obtain ⟨p, acc⟩ := pa
    simp only [enumFrom, parseNetlifyLines]
    rw [step_empty_open _ _ _ _ _ (hacc p acc rfl)]
    simp [parseNetlifyLines, pendOf]

/-- C7: for every Netlify headers config value cfg, parsing the serialization
of cfg returns cfg itself, with comments, blank lines and the indentation
string preserved.  This holds under well-formedness of cfg (non-empty path
blocks, `#`-comments, header values and block comments free of the line
terminators the parsing regexes' `.*$` tails cannot cross, newline-free
whitespace indent, and the default `"\t"` indent when no block exists); the
unrestricted claim is refuted by `C7_counterexample_default_indent`. -/
theorem C7_parse_serialize_round_trip (cfg : NetlifyHeadersRawConfig)
    (hwf : wfNetlifyConfig cfg = true) :
    parseNetlifyHeadersConfig (serializeNetlifyHeadersConfig cfg) = .ok cfg := by
  obtain ⟨iw, E⟩ := cfg
  simp only [wfNetlifyConfig, Bool.and_eq_true, Bool.or_eq_true,
    decide_eq_true_eq] at hwf
  obtain ⟨⟨hiw, hEwf⟩, hdef⟩ := hwf
  have hiwAll : ∀ c ∈ iw, isSpaceJS c = true := by
    simp only [wfIndent, Bool.and_eq_true, List.all_eq_true, Bool.and_eq_true] at hiw
    intro c hc
    exact (hiw.2 c hc).1
  have hiwNe : iw ≠ [] := by
    simp only [wfIndent, Bool.and_eq_true] at hiw
    intro h
    subst h
    simp at hiw
  have hser : serializeNetlifyHeadersConfig ⟨iw, E⟩ =
      joinLines (E.flatMap (linesOfEntry iw)) := by
    apply serialize_eq_joinLines
    intro p es hm
    exact wfEntry_block_ne hEwf hm
  have hsplit : splitOnChar '\n' (joinLines (E.flatMap (linesOfEntry iw))) =
      E.flatMap (linesOfEntry iw) ++ [[]] := by
    apply splitOnChar_joinLines
    intro l hl
    simp only [List.mem_flatMap] at hl
    obtain ⟨e, heE, hle⟩ := hl
    have hwfe : wfEntry e = true := by
      simp only [List.all_eq_true] at hEwf
      exact hEwf e heE
    exact linesOfEntry_noNl hiw hwfe l hle
  have hmain := parseEntriesLines iw hiwAll hiwNe E 0 [] none none hEwf
    (by intro p acc h; cases h) (Or.inl rfl)
  have hall : parseNetlifyLines
      (enumFrom 0 (E.flatMap (linesOfEntry iw) ++ [[]])) ⟨none, [], none⟩ =
      .ok ⟨(if hasBlockB E then some iw else none),
        (flushedEntries none E).1 ++ pendOf (flushedEntries none E).2 ++
          [.emptyLine], none⟩ := by
    rw [enumFrom_append, parseNetlifyLines_append, hmain]
    have ht := parse_finish (if hasBlockB E then some iw else none)
      ([] ++ (flushedEntries none E).1) (flushedEntries none E).2
      (by
        intro p acc h
        rcases flushedEntries_open_sound E none p acc h with h2 | h2
        · cases h2
        · exact wfEntry_block_ne hEwf h2)
      (0 + (E.flatMap (linesOfEntry iw)).length)
    simp only [List.nil_append] at ht
    exact ht
  have hE2 : (flushedEntries none E).1 ++ pendOf (flushedEntries none E).2 ++
      [ConfigEntry.emptyLine] = E ++ [ConfigEntry.emptyLine] := by
    rw [flushedEntries_concat]
    rfl
  rw [hE2] at hall
  rw [hser]
  simp only [parseNetlifyHeadersConfig]
  rw [hsplit, hall]
  rcases hdef with hb | hdefiw
  · simp [hb, flushCurrent, List.getLast?_concat, List.dropLast_concat]
  · by_cases hb : hasBlockB E = true
    · simp [hb, flushCurrent, List.getLast?_concat, List.dropLast_concat, hdefiw]
    · rw [Bool.not_eq_true] at hb
      simp [hb, flushCurrent, List.getLast?_concat, List.dropLast_concat, hdefiw]

/-- C7 counterexample: the unrestricted round-trip claim fails, because the
indentation string is not always preserved.  A config with indent `" "` and no
path block serializes to the empty text, which parses back with the default
`"\t"` indent. -/
theorem C7_counterexample_default_indent :
    parseNetlifyHeadersConfig
        (serializeNetlifyHeadersConfig ⟨[' '], []⟩) ≠
      .ok ⟨[' '], []⟩ := by decide

def netlifyRoundTripEx : NetlifyHeadersRawConfig :=
  ⟨['\t'],
    [.comment ("# A top comment".data),
     .emptyLine,
     .pathBlock ("/index.html".data)
       [.header ("X-Frame-Options".data) ("DENY".data),
        .comment ("# inner note".data),
        .header ("Cache-Control".data) ("no-cache".data)],
     .emptyLine]⟩

theorem C7_parse_serialize_round_trip_witness :
    wfNetlifyConfig netlifyRoundTripEx = true ∧
      parseNetlifyHeadersConfig (serializeNetlifyHeadersConfig netlifyRoundTripEx) =
        .ok netlifyRoundTripEx :=
  ⟨by decide, C7_parse_serialize_round_trip netlifyRoundTripEx (by decide)⟩

/-! ## Persisted hashes module (`state.mjs`: `arraysEqual`, `pageHashesEqual`,
`sriHashesEqual`, `generateSRIHashesModule`) -/

/-- `perResourceSriHashes` (`types.mts`): two JS Maps from resource path to
hash, embedded as insertion-ordered association lists. -/
structure PerResourceHashes where
  scripts : List (Str × Str)
  styles : List (Str × Str)
deriving DecidableEq

/-- `HashesCollection` (`types.mts`): the four hash sets are JS `Set`s kept in
insertion order, the per-page table a JS `Map`. -/
structure HashesCollection where
  inlineScriptHashes : List Str
  inlineStyleHashes : List Str
  extScriptHashes : List Str
  extStyleHashes : List Str
  perPageSriHashes : List (Str × PerPageHashes)
  perResourceSriHashes : PerResourceHashes
deriving DecidableEq

/-- The exports of a persisted hashes module (`HashesModule` in `types.mts`);
every field may be absent, the code applies `?? defaultValue`. -/
structure HashesModule where
  inlineScriptHashes : Option (List Str) := none
  inlineStyleHashes : Option (List Str) := none
  extScriptHashes : Option (List Str) := none
  extStyleHashes : Option (List Str) := none
  perPageSriHashes : Option (List (Str × PerPageHashes)) := none
  perResourceSriHashes : Option PerResourceHashes := none
deriving DecidableEq

/-- `arraysEqual` (state.mjs:511): length check, then pointwise `!==`. -/
def arraysEqual (a b : List Str) : Bool :=
  if a.length ≠ b.length then false
  else (a.zip b).all (fun p => p.1 = p.2)

/-- `pageHashesEqual` (state.mjs:525): sorted key sets must match, then each
key of `a` must be present in `b` with pointwise-equal script and style
arrays. -/
def pageHashesEqual (a b : List (Str × PerPageHashes)) : Bool :=
  if !arraysEqual (jsSortBy strLeB (a.map Prod.fst))
      (jsSortBy strLeB (b.map Prod.fst)) then false
  else
    a.all (fun p =>
      match assocLookup b p.1 with
      | none => false
      | some bv =>
        arraysEqual p.2.scripts bv.scripts && arraysEqual p.2.styles bv.styles)

/-- `sriHashesEqual` (state.mjs:552): sorted key sets of both records must
match, then each entry of `a` must be present in `b` with the same value. -/
def sriHashesEqual (a b : PerResourceHashes) : Bool :=
  if !arraysEqual (jsSortBy strLeB (a.scripts.map Prod.fst))
        (jsSortBy strLeB (b.scripts.map Prod.fst)) ||
      !arraysEqual (jsSortBy strLeB (a.styles.map Prod.fst))
        (jsSortBy strLeB (b.styles.map Prod.fst)) then false
  else
    a.scripts.all (fun p => assocLookup b.scripts p.1 = some p.2) &&
      a.styles.all (fun p => assocLookup b.styles p.1 = some p.2)

/-- The `perPageHashes` record `generateSRIHashesModule` builds from the
collection (state.mjs:656-664): per-page arrays sorted, keys in map order. -/
def perPageHashesOf (h : HashesCollection) : List (Str × PerPageHashes) :=
  h.perPageSriHashes.foldl
    (fun acc p =>
      assocSet acc p.1
        ⟨jsSortBy strLeB p.2.scripts, jsSortBy strLeB p.2.styles⟩)
    []

/-- The `perResourceHashes` record (state.mjs:666-677): the two maps copied
into records in iteration order. -/
def perResourceHashesOf (h : HashesCollection) : PerResourceHashes :=
  ⟨h.perResourceSriHashes.scripts.foldl (fun acc p => assocSet acc p.1 p.2) [],
    h.perResourceSriHashes.styles.foldl (fun acc p => assocSet acc p.1 p.2) []⟩

/-- The write decision of `generateSRIHashesModule` (state.mjs:643-699):
`true` exactly when the function reaches the `if (persistHashes)` body and
writes the module file; `existing` is the loaded module when
`doesFileExist(sriHashesModule)` holds. -/
def generateSRIHashesModulePersists (h : HashesCollection)
    (existing : Option HashesModule) : Bool :=
  match existing with
  | none => true
  | some hModule =>
    !sriHashesEqual (perResourceHashesOf h)
        (hModule.perResourceSriHashes.getD ⟨[], []⟩) ||
      !arraysEqual (jsSortBy strLeB h.inlineScriptHashes)
        (hModule.inlineScriptHashes.getD []) ||
      !arraysEqual (jsSortBy strLeB h.inlineStyleHashes)
        (hModule.inlineStyleHashes.getD []) ||
      !arraysEqual (jsSortBy strLeB h.extScriptHashes)
        (hModule.extScriptHashes.getD []) ||
      !arraysEqual (jsSortBy strLeB h.extStyleHashes)
        (hModule.extStyleHashes.getD []) ||
      !pageHashesEqual (perPageHashesOf h)
        (hModule.perPageSriHashes.getD [])

theorem zip_self_all_eq (l : List Str) :
    (l.zip l).all (fun p => p.1 = p.2) = true := by
  induction l with
  | nil => rfl
  | cons x xs ih => simpa using ih

theorem arraysEqual_refl (l : List Str) : arraysEqual l l = true := by
  simp [arraysEqual, zip_self_all_eq]

theorem assocSet_keys {α : Type} (m : List (Str × α)) (k : Str) (v : α) :
    (assocSet m k v).map Prod.fst =
      if k ∈ m.map Prod.fst then m.map Prod.fst else m.map Prod.fst ++ [k] := by
  induction m with
  | nil => simp [assocSet]
  | cons p rest ih =>
    obtain ⟨k2, v2⟩ := p
    simp only [assocSet]
    by_cases hk : k2 = k
    · subst hk
      rw [if_pos rfl]
      simp only [List.map_cons]
      rw [if_pos (List.mem_cons_self k2 (List.map Prod.fst rest))]
    · have hk2 : ¬(k = k2) := fun h2 => hk h2.symm
      simp only [if_neg hk, List.map_cons, ih]
      by_cases hmem : k ∈ rest.map Prod.fst
      · simp [hmem, hk2]
      · simp [hmem, hk2]

theorem nodup_assocSet {α : Type} {m : List (Str × α)}
    (h : (m.map Prod.fst).Nodup) (k : Str) (v : α) :
    ((assocSet m k v).map Prod.fst).Nodup := by
  rw [assocSet_keys]
  by_cases hmem : k ∈ m.map Prod.fst
  · simpa [hmem]
  · simp [hmem, List.nodup_append, h]

theorem nodup_foldl_assocSet {β α : Type} (g : Str × β → α) :
    ∀ (l : List (Str × β)) (acc : List (Str × α)),
      (acc.map Prod.fst).Nodup →
      ((l.foldl (fun acc2 p => assocSet acc2 p.1 (g p)) acc).map Prod.fst).Nodup := by
  intro l
  induction l with
  | nil => intro acc h; exact h
  | cons p rest ih =>
    intro acc h
    exact ih _ (nodup_assocSet h p.1 (g p))

theorem assocLookup_mem {α : Type} :
    ∀ {m : List (Str × α)}, (m.map Prod.fst).Nodup →
      ∀ {k : Str} {v : α}, (k, v) ∈ m → assocLookup m k = some v := by
  intro m
  induction m with
  | nil =>
    intro _ k v h
    exact absurd h (List.not_mem_nil _)
  | cons p rest ih =>
    intro hnd k v hm
    obtain ⟨k2, v2⟩ := p
    simp only [List.map_cons, List.nodup_cons] at hnd
    simp only [assocLookup]
    rcases List.mem_cons.mp hm with heq | htail
    · injection heq with hk hv
      subst hk
      subst hv
      simp
    · by_cases hk : k2 = k
      · subst hk
        exact absurd (List.mem_map_of_mem Prod.fst htail) hnd.1
      · rw [if_neg hk]
        exact ih hnd.2 htail

theorem pageHashesEqual_refl (P : List (Str × PerPageHashes))
    (hnd : (P.map Prod.fst).Nodup) : pageHashesEqual P P = true := by
  simp only [pageHashesEqual, arraysEqual_refl, Bool.not_true,
    Bool.false_eq_true, if_false, List.all_eq_true]
  intro p hp
  obtain ⟨k, v⟩ := p
  simp only [assocLookup_mem hnd hp, arraysEqual_refl, Bool.and_self]

theorem sriHashesEqual_refl (R : PerResourceHashes)
    (hs : (R.scripts.map Prod.fst).Nodup)
    (ht : (R.styles.map Prod.fst).Nodup) : sriHashesEqual R R = true := by
  simp only [sriHashesEqual, arraysEqual_refl, Bool.not_true, Bool.or_self,
    Bool.false_eq_true, if_false, Bool.and_eq_true, List.all_eq_true]
  constructor
  · intro p hp
    obtain ⟨k, v⟩ := p
    simp [assocLookup_mem hs hp]
  · intro p hp
    obtain ⟨k, v⟩ := p
    simp [assocLookup_mem ht hp]

/-- C9: if the persisted hashes module exists and its exported data is
structurally equal to the serialized form of the current hash collection
(the sorted hash arrays, the per-page record with sorted arrays, the
per-resource records), then `generateSRIHashesModule` performs no write. -/
theorem C9_generateSRIHashesModule_skip_write (h : HashesCollection)
    (m : HashesModule)
    (h1 : m.inlineScriptHashes = some (jsSortBy strLeB h.inlineScriptHashes))
    (h2 : m.inlineStyleHashes = some (jsSortBy strLeB h.inlineStyleHashes))
    (h3 : m.extScriptHashes = some (jsSortBy strLeB h.extScriptHashes))
    (h4 : m.extStyleHashes = some (jsSortBy strLeB h.extStyleHashes))
    (h5 : m.perPageSriHashes = some (perPageHashesOf h))
    (h6 : m.perResourceSriHashes = some (perResourceHashesOf h)) :
    generateSRIHashesModulePersists h (some m) = false := by
  have hppnd : ((perPageHashesOf h).map Prod.fst).Nodup := by
    simp only [perPageHashesOf]
    exact nodup_foldl_assocSet _ _ _ (by simp)
  have hsnd : ((perResourceHashesOf h).scripts.map Prod.fst).Nodup := by
    simp only [perResourceHashesOf]
    exact nodup_foldl_assocSet _ _ _ (by simp)
  have htnd : ((perResourceHashesOf h).styles.map Prod.fst).Nodup := by
    simp only [perResourceHashesOf]
    exact nodup_foldl_assocSet _ _ _ (by simp)
  simp only [generateSRIHashesModulePersists, h1, h2, h3, h4, h5, h6,
    Option.getD_some, arraysEqual_refl,
    pageHashesEqual_refl _ hppnd, sriHashesEqual_refl _ hsnd htnd,
    Bool.not_true, Bool.or_self, Bool.false_or, Bool.or_false]

def sriCollectionEx : HashesCollection :=
  ⟨["sha256-b".data, "sha256-a".data], [], ["sha256-c".data], [],
    [("index.html".data,
      ⟨["sha256-s2".data, "sha256-s1".data], ["sha256-t1".data]⟩)],
    ⟨[("/a.js".data, "sha256-c".data)], []⟩⟩

def sriModuleEx : HashesModule :=
  ⟨some (jsSortBy strLeB sriCollectionEx.inlineScriptHashes),
    some (jsSortBy strLeB sriCollectionEx.inlineStyleHashes),
    some (jsSortBy strLeB sriCollectionEx.extScriptHashes),
    some (jsSortBy strLeB sriCollectionEx.extStyleHashes),
    some (perPageHashesOf sriCollectionEx),
    some (perResourceHashesOf sriCollectionEx)⟩

theorem C9_generateSRIHashesModule_skip_write_witness :
    sriModuleEx.perPageSriHashes = some (perPageHashesOf sriCollectionEx) ∧
      generateSRIHashesModulePersists sriCollectionEx (some sriModuleEx) = false :=
  ⟨rfl, C9_generateSRIHashesModule_skip_write sriCollectionEx sriModuleEx
    rfl rfl rfl rfl rfl rfl⟩

/-! ## SRI scanning (`state.mjs`: regex helpers, `updateDynamicPageSriHashes`,
`updateStaticPageSriHashes`) -/

/-- ASCII lowercasing, used to model the `/i` regex flag. -/
def lowerAscii (c : Char) : Char :=
  if 65 ≤ c.toNat ∧ c.toNat ≤ 90 then Char.ofNat (c.toNat + 32) else c

/-- Case-insensitive character comparison. -/
def ciCharEq (a b : Char) : Bool := lowerAscii a = lowerAscii b

/-- Consume the literal `pat` case-insensitively; return the rest of `s`. -/
def matchCI : Str → Str → Option Str
  | [], s => some s
  | _ :: _, [] => none
  | p :: ps, c :: cs => if ciCharEq p c then matchCI ps cs else none

/-- `urlLikeRegex.test(src)` for `/^(https?:)?\/\/[^/]/i` (state.mjs:100):
after an optional scheme, `//` followed by a character other than `/`. -/
def urlLikeTail : Str → Bool
  | '/' :: '/' :: c :: _ => c ≠ '/'
  | _ => false

def urlLikeTest (s : Str) : Bool :=
  match matchCI "https:".data s with
  | some r => urlLikeTail r
  | none =>
    match matchCI "http:".data s with
    | some r => urlLikeTail r
    | none => urlLikeTail s

/-- The value alternatives of `anonymousCrossOriginRegex`
(`"anonymous"|'anonymous'|anonymous`, case-insensitive). -/
def anonValueAt : Str → Bool
  | '"' :: r =>
    match matchCI "anonymous".data r with
    | some ('"' :: _) => true
    | _ => false
  | '\'' :: r =>
    match matchCI "anonymous".data r with
    | some ('\'' :: _) => true
    | _ => false
  | r => (matchCI "anonymous".data r).isSome

/-- A match of `anonymousCrossOriginRegex` starting at the head of `s`. -/
def anonCrossOriginAt (s : Str) : Bool :=
  match matchCI "crossorigin".data s with
  | none => false
  | some r =>
    match r.dropWhile isSpaceJS with
    | '=' :: r2 => anonValueAt (r2.dropWhile isSpaceJS)
    | _ => false

/-- `anonymousCrossOriginRegex.test(attrs)` (state.mjs:101):
`/crossorigin\s*=\s*("anonymous"|'anonymous'|anonymous)/i`, searched at every
position. -/
def anonymousCrossOriginTest : Str → Bool
  | [] => anonCrossOriginAt []
  | c :: cs => anonCrossOriginAt (c :: cs) || anonymousCrossOriginTest cs

/-- `[a-z0-9+\/]` under `/i`. -/
def isB64Char (c : Char) : Bool :=
  (97 ≤ c.toNat && c.toNat ≤ 122) || (65 ≤ c.toNat && c.toNat ≤ 90) ||
    (48 ≤ c.toNat && c.toNat ≤ 57) || c.toNat = 43 || c.toNat = 47

/-- The quoted value of `integrityRegex` (state.mjs:103):
`sha256-[a-z0-9+\/]{43}=` followed by the closing quote and the end of the
attribute; returns the captured group (the source text of the hash). -/
def integrityValue (q : Char) (r : Str) : Option Str :=
  match matchCI "sha256-".data r with
  | none => none
  | some rest =>
    if (rest.take 43).all isB64Char && rest.drop 43 = ['=', q] then
      some (r.take 51)
    else none

def integrityQuoted : Str → Option Str
  | '"' :: r => integrityValue '"' r
  | '\'' :: r => integrityValue '\'' r
  | _ => none

/-- `integrityRegex.exec(attr)` (state.mjs:103): anchored
`^integrity\s*=\s*("…"|'…')$`, case-insensitive; returns
`integrity1 ?? integrity2`. -/
def integrityAttrMatch (attr : Str) : Option Str :=
  match matchCI "integrity".data attr with
  | none => none
  | some r =>
    match r.dropWhile isSpaceJS with
    | '=' :: r2 => integrityQuoted (r2.dropWhile isSpaceJS)
    | _ => none

/-- `attrs.split(naiveAttrSplitter)` for `/(?<!=)\s+(?!=)/` (state.mjs:106):
split on whitespace runs not preceded by `=` and not followed by `=`; a run
followed by `=` is shortened by one character (its last character joins the
next fragment), and a single such character produces no split at all. -/
def naiveSplitAux : Nat → Option Char → Str → Str → List Str
  | _, _, cur, [] => [cur.reverse]
  | 0, _, cur, rest => [cur.reverse ++ rest]
  | fuel + 1, prev, cur, c :: cs =>
    if isSpaceJS c && prev ≠ some '=' then
      match cs.dropWhile isSpaceJS with
      | [] => [cur.reverse, []]
      | d :: ds =>
        if d = '=' then
          if cs.takeWhile isSpaceJS = [] then
            naiveSplitAux fuel (some c) (c :: cur) cs
          else
            cur.reverse ::
              naiveSplitAux fuel (some ((cs.takeWhile isSpaceJS).getLastD c))
                [(cs.takeWhile isSpaceJS).getLastD c] (d :: ds)
        else
          cur.reverse ::
            naiveSplitAux fuel (some ((cs.takeWhile isSpaceJS).getLastD c))
              [] (d :: ds)
    else naiveSplitAux fuel (some c) (c :: cur) cs

def naiveSplit (s : Str) : List Str := naiveSplitAux (s.length + 1) none [] s

def extractFromAttrList : List Str → Option Str
  | [] => none
  | a :: rest =>
    if a.length ≤ 128 then
      match integrityAttrMatch a with
      | some h2 => some h2
      | none => extractFromAttrList rest
    else extractFromAttrList rest

/-- `extractIntegrityHash` (state.mjs:108): first attribute fragment of
length ≤ 128 matched by `integrityRegex`. -/
def extractIntegrityHash (attrs : Str) : Option Str :=
  extractFromAttrList (naiveSplit attrs)

/-- `[a-z0-9\-_\/\.]` under `/i` (the unquoted src alternative). -/
def isSrcChar (c : Char) : Bool :=
  (97 ≤ c.toNat && c.toNat ≤ 122) || (65 ≤ c.toNat && c.toNat ≤ 90) ||
    (48 ≤ c.toNat && c.toNat ≤ 57) || c.toNat = 45 || c.toNat = 95 ||
    c.toNat = 47 || c.toNat = 46

/-- The value alternatives of the `srcRegex`es:
`"(?<src1>[^"]*)"|'(?<src2>[^']*)'|(?<src3>[a-z0-9\-_\/\.]+)`. -/
def srcValueAt : Str → Option Str
  | '"' :: r => if '"' ∈ r then some (r.takeWhile (fun c => c ≠ '"')) else none
  | '\'' :: r =>
    if '\'' ∈ r then some (r.takeWhile (fun c => c ≠ '\'')) else none
  | r => if r.takeWhile isSrcChar = [] then none else some (r.takeWhile isSrcChar)

/-- `name\s*=\s*value` at the head of `s` (the part of a `srcRegex` after its
`(^|\s+)` anchor). -/
def srcAttrAtName (name : Str) (s : Str) : Option Str :=
  match matchCI name s with
  | none => none
  | some r =>
    match r.dropWhile isSpaceJS with
    | '=' :: r2 => srcValueAt (r2.dropWhile isSpaceJS)
    | _ => none

def srcAttrTryNames : List Str → Str → Option Str
  | [], _ => none
  | n :: ns, s =>
    match srcAttrAtName n s with
    | some v => some v
    | none => srcAttrTryNames ns s

def srcSearchAux (names : List Str) : Str → Option Str
  | [] => none
  | c :: cs =>
    if isSpaceJS c then
      match srcAttrTryNames names cs with
      | some v => some v
      | none => srcSearchAux names cs
    else srcSearchAux names cs

/-- `srcRegex.exec(attrs)` (state.mjs:128-131 etc.): the first attribute
position (start of string or preceded by whitespace) where one of the
attribute names is assigned a value; returns `src1 ?? src2 ?? src3`, `none`
when the regex does not match. -/
def srcRegexFind (names : List Str) (s : Str) : Option Str :=
  match srcAttrTryNames names s with
  | some v => some v
  | none => srcSearchAux names s

/-- The value alternatives of `relStylesheetRegex`
(`'stylesheet'|"stylesheet"|stylesheet(\s+?|$)`, case-insensitive). -/
def relValueAt : Str → Bool
  | '\'' :: r =>
    match matchCI "stylesheet".data r with
    | some ('\'' :: _) => true
    | _ => false
  | '"' :: r =>
    match matchCI "stylesheet".data r with
    | some ('"' :: _) => true
    | _ => false
  | r =>
    match matchCI "stylesheet".data r with
    | some [] => true
    | some (c :: _) => isSpaceJS c
    | none => false

def relAttrAt (s : Str) : Bool :=
  match matchCI "rel".data s with
  | none => false
  | some r =>
    match r.dropWhile isSpaceJS with
    | '=' :: r2 => relValueAt (r2.dropWhile isSpaceJS)
    | _ => false

def relSearchAux : Str → Bool
  | [] => false
  | c :: cs => (isSpaceJS c && relAttrAt cs) || relSearchAux cs

/-- `relStylesheetRegex.test(attrs)` (state.mjs:104):
`/(^|\s+)rel\s*=\s*('stylesheet'|"stylesheet"|stylesheet(\s+?|$))/i`. -/
def relStylesheetTest (s : Str) : Bool := relAttrAt s || relSearchAux s

/-- JS `updated.replace(pat, repl)` with a plain-string pattern: replace the
first occurrence only; the string is returned unchanged when `pat` does not
occur. -/
def replaceFirstStr : Str → Str → Str → Str
  | [], pat, repl => if pat = [] then repl else []
  | c :: cs, pat, repl =>
    if beginsWith pat (c :: cs) then repl ++ (c :: cs).drop pat.length
    else c :: replaceFirstStr cs pat repl

/-- `src.indexOf(pat) >= 0`. -/
def hasSubstr : Str → Str → Bool
  | [], pat => beginsWith pat []
  | c :: cs, pat => beginsWith pat (c :: cs) || hasSubstr cs pat

/-- `t: 'Script' | 'Style'` (the `t2` field is the same tag in plural). -/
inductive ElemKind
  | script
  | style
deriving DecidableEq

def elemKindName : ElemKind → String
  | .script => "Script"
  | .style => "Style"

def elemKindLower : ElemKind → String
  | .script => "script"
  | .style => "style"

def elemKindPlural : ElemKind → String
  | .script => "scripts"
  | .style => "styles"

/-- The common shape of `scriptReplacer`, `styleReplacer` and
`linkStyleReplacer` (state.mjs:84-97): reopen the tag with the original
attributes, the integrity attribute, and optionally
`crossorigin="anonymous"`. -/
def elemReplacer (tag : Str) (selfClosing : Bool) (hash attrs : Str)
    (setCrossorigin : Bool) (content : Str) : Str :=
  if selfClosing then
    '<' :: tag ++ attrs ++ " integrity=\"".data ++ hash ++ ['"'] ++
      (if setCrossorigin then " crossorigin=\"anonymous\"".data else []) ++
      "/>".data
  else
    '<' :: tag ++ attrs ++ " integrity=\"".data ++ hash ++ ['"'] ++
      (if setCrossorigin then " crossorigin=\"anonymous\"".data else []) ++
      ['>'] ++ content ++ "</".data ++ tag ++ ['>']

/-- One entry of `regexProcessors` (state.mjs:122), with the regex-valued
fields represented by their data: the element kind, the attribute names the
`srcRegex` accepts, the tag the replacer re-emits, `hasContent`, whether the
replacer closes with `/>`, and whether `attrsRegex` (the stylesheet filter)
is present. -/
structure Processor where
  t : ElemKind
  srcNames : List Str
  tag : Str
  hasContent : Bool
  selfClosing : Bool
  hasAttrsRegex : Bool
deriving DecidableEq

def scriptProcessor : Processor :=
  ⟨.script, ["src".data], "script".data, true, false, false⟩

def styleProcessor : Processor :=
  ⟨.style, ["href".data, "src".data], "style".data, true, false, false⟩

def linkProcessor : Processor :=
  ⟨.style, ["href".data], "link".data, false, true, true⟩

/-- `attrsRegex && !attrsRegex.test(attrs)` — only the link processor carries
an `attrsRegex`, namely `relStylesheetRegex`. -/
def procAttrsFilterFails (p : Processor) (attrs : Str) : Bool :=
  p.hasAttrsRegex && !relStylesheetTest attrs

def procReplacer (p : Processor) (hash attrs : Str) (setCrossorigin : Bool)
    (content : Str) : Str :=
  elemReplacer p.tag p.selfClosing hash attrs setCrossorigin content

/-- One `regex.exec` result: `match[0]`, the raw `attrs` group and the
`content` group (`?? ''`). -/
structure ElemMatch where
  full : Str
  attrs : Str
  content : Str
deriving DecidableEq

/-- `MiddlewareHashes` (`core.mjs`): the global per-resource hash maps. -/
structure MiddlewareHashes where
  scripts : List (Str × Str)
  styles : List (Str × Str)
deriving DecidableEq

def mwOf (gh : MiddlewareHashes) : ElemKind → List (Str × Str)
  | .script => gh.scripts
  | .style => gh.styles

/-- `'all' | 'static' | false`. -/
inductive InlinePolicy
  | all
  | staticOnly
  | off
deriving DecidableEq

structure SRIOptions where
  allowInlineScripts : Option InlinePolicy := none
  allowInlineStyles : Option InlinePolicy := none
deriving DecidableEq

/-- `sri?.allowInlineScripts ?? 'all'` / `sri?.allowInlineStyles ?? 'all'`. -/
def allowInlineOf (sri : SRIOptions) : ElemKind → InlinePolicy
  | .script => sri.allowInlineScripts.getD .all
  | .style => sri.allowInlineStyles.getD .all

def pageHashesAdd (ph : PerPageHashes) (t : ElemKind) (v : Str) :
    PerPageHashes :=
  match t with
  | .script => ⟨jsSetAdd ph.scripts v, ph.styles⟩
  | .style => ⟨ph.scripts, jsSetAdd ph.styles v⟩

def bothMsg (t : ElemKind) (src : Str) : String :=
  s!"{elemKindName t} \"{String.mk src}\" must have either a src/href attribute or content, but not both. Removing it."

def mismatchMsg (src : Str) : String :=
  s!"Detected integrity hash mismatch for resource \"{String.mk src}\". Removing it."

def notAllowedMsg (src : Str) : String :=
  s!"Detected reference to not explicitly allowed external resource \"{String.mk src}\". Removing it."

def inlineDisabledDotMsg (t : ElemKind) : String :=
  s!"Removing inline {elemKindLower t} block (inline {elemKindPlural t} are disabled)."

def inlineDisabledNoDotMsg (t : ElemKind) : String :=
  s!"Removing inline {elemKindLower t} block (inline {elemKindPlural t} are disabled)"

def emptyIntegrityDynMsg (t : ElemKind) : String :=
  s!"Found empty integrity attribute, removing inline {elemKindLower t} block."

def unableLocalMsg (src : Str) : String :=
  s!"Unable to obtain SRI hash for local resource: \"{String.mk src}\""

def unableExternalDotMsg (src : Str) : String :=
  s!"Unable to process external resource: \"{String.mk src}\"."

/-- The observable state of `updateDynamicPageSriHashes`: the accumulated
`pageHashes`, the `updatedContent` string, and the `logger.warn` calls in
order. -/
structure DynState where
  pageHashes : PerPageHashes
  updatedContent : Str
  warnings : List String
deriving DecidableEq

/-- `updatedContent = updatedContent.replace(match[0], '')` plus the
accompanying `logger.warn`. -/
def dynRemove (st : DynState) (m : ElemMatch) (w : String) : DynState :=
  ⟨st.pageHashes, replaceFirstStr st.updatedContent m.full [], st.warnings ++ [w]⟩

def dynWarnOnly (st : DynState) (w : String) : DynState :=
  ⟨st.pageHashes, st.updatedContent, st.warnings ++ [w]⟩

def dynAddPage (st : DynState) (t : ElemKind) (v : Str) : DynState :=
  ⟨pageHashesAdd st.pageHashes t v, st.updatedContent, st.warnings⟩

/-- The final `if (sriHash)` replacement (state.mjs:466-478). -/
def dynReplaceElem (p : Processor) (m : ElemMatch) (attrs hash : Str)
    (setCross : Bool) (st : DynState) : DynState :=
  ⟨st.pageHashes,
    replaceFirstStr st.updatedContent m.full
      (procReplacer p hash (if attrs ≠ [] then ' ' :: attrs else [])
        (setCross && !anonymousCrossOriginTest attrs) m.content),
    st.warnings⟩

/-- The tail of the dynamic per-match body (state.mjs:446-478): the
`hasContent && !sriHash` inline branch followed by the `if (sriHash)`
replacement. -/
def dynFinish (sha : Str → Str) (sri : SRIOptions) (p : Processor)
    (m : ElemMatch) (attrs : Str) (setCross : Bool) (st : DynState) :
    Option Str → DynState
  | none =>
    if p.hasContent then
      if allowInlineOf sri p.t = InlinePolicy.all then
        dynReplaceElem p m attrs (sha m.content) setCross
          (dynAddPage st p.t (sha m.content))
      else dynRemove st m (inlineDisabledNoDotMsg p.t)
    else st
  | some hash => dynReplaceElem p m attrs hash setCross st

def optTruthy : Option Str → Bool
  | some (_ :: _) => true
  | _ => false

/-- The `givenSriHash !== undefined` branch of the dynamic scan
(state.mjs:363-407); always ends in `continue`. -/
def dynIntegrityBranch (gh : MiddlewareHashes) (sri : SRIOptions)
    (p : Processor) (m : ElemMatch) (st : DynState) (src : Option Str)
    (g : Str) : DynState :=
  if g ≠ [] then
    if optTruthy src then
      if (assocLookup (mwOf gh p.t) (src.getD [])).getD [] ≠ [] then
        if (assocLookup (mwOf gh p.t) (src.getD [])).getD [] ≠ g then
          dynRemove st m (mismatchMsg (src.getD []))
        else dynAddPage st p.t g
      else dynRemove st m (notAllowedMsg (src.getD []))
    else if m.content ≠ [] then
      if allowInlineOf sri p.t = InlinePolicy.all then dynAddPage st p.t g
      else dynRemove st m (inlineDisabledDotMsg p.t)
    else st
  else dynRemove st m (emptyIntegrityDynMsg p.t)

/-- The `if (src)` branch of the dynamic scan (state.mjs:409-443), falling
through to `dynFinish` where the source falls through. -/
def dynSrcBranch (sha : Str → Str) (gh : MiddlewareHashes) (sri : SRIOptions)
    (p : Processor) (m : ElemMatch) (attrs : Str) (st : DynState)
    (src : Option Str) : DynState :=
  if optTruthy src then
    if urlLikeTest (src.getD []) then
      if (assocLookup (mwOf gh p.t) (src.getD [])).getD [] ≠ [] then
        dynFinish sha sri p m attrs true
          (dynAddPage st p.t ((assocLookup (mwOf gh p.t) (src.getD [])).getD []))
          (some ((assocLookup (mwOf gh p.t) (src.getD [])).getD []))
      else dynRemove st m (notAllowedMsg (src.getD []))
    else if beginsWith ['/'] (src.getD []) then
      if (assocLookup (mwOf gh p.t) (src.getD [])).getD [] ≠ [] then
        dynFinish sha sri p m attrs false
          (dynAddPage st p.t ((assocLookup (mwOf gh p.t) (src.getD [])).getD []))
          (some ((assocLookup (mwOf gh p.t) (src.getD [])).getD []))
      else
        if !(beginsWith "/@vite/".data (src.getD []) ||
            beginsWith "/@fs/".data (src.getD []) ||
            hasSubstr (src.getD []) "?astro&type=".data) then
          dynWarnOnly st (unableLocalMsg (src.getD []))
        else st
    else dynWarnOnly st (unableExternalDotMsg (src.getD []))
  else dynFinish sha sri p m attrs false st none

/-- One iteration of the dynamic `while ((match = regex.exec(content)))`
loop (state.mjs:336-479), with `attrs = match.groups?.attrs?.trim() ?? ''`
already computed. -/
def processDynMatchA (sha : Str → Str) (gh : MiddlewareHashes)
    (sri : SRIOptions) (p : Processor) (st : DynState) (m : ElemMatch)
    (attrs : Str) : DynState :=
  if attrs ≠ [] then
    if procAttrsFilterFails p attrs then st
    else
      if m.content ≠ [] && optTruthy (srcRegexFind p.srcNames attrs) then
        dynRemove st m
          (bothMsg p.t ((srcRegexFind p.srcNames attrs).getD []))
      else
        match extractIntegrityHash attrs with
        | some g =>
          dynIntegrityBranch gh sri p m st (srcRegexFind p.srcNames attrs) g
        | none =>
          dynSrcBranch sha gh sri p m attrs st (srcRegexFind p.srcNames attrs)
  else dynFinish sha sri p m attrs false st none

def processDynMatch (sha : Str → Str) (gh : MiddlewareHashes)
    (sri : SRIOptions) (p : Processor) (st : DynState) (m : ElemMatch) :
    DynState :=
  processDynMatchA sha gh sri p st m (trimJS m.attrs)

/-- `updateDynamicPageSriHashes` (state.mjs:310): the loop over
`regexProcessors`, with the successive `regex.exec` matches of each of the
three element regexes supplied as `ms1` (script), `ms2` (style), `ms3`
(link), and SHA-256 (`generateSRIHash`) supplied as `sha`. -/
def updateDynamicPageSriHashes (sha : Str → Str) (content : Str)
    (gh : MiddlewareHashes) (sri : SRIOptions)
    (ms1 ms2 ms3 : List ElemMatch) : DynState :=
  ms3.foldl (processDynMatch sha gh sri linkProcessor)
    (ms2.foldl (processDynMatch sha gh sri styleProcessor)
      (ms1.foldl (processDynMatch sha gh sri scriptProcessor)
        ⟨⟨[], []⟩, content, []⟩))

/-- A dynamic-scan match that the claim calls offending: non-empty attributes
passing the element filter, a syntactically valid (hence non-empty) integrity
attribute, a truthy src/href value, and a global-hash entry that is absent or
carries a different hash. -/
def offendingDynMatch (gh : MiddlewareHashes) (p : Processor)
    (m : ElemMatch) : Bool :=
  trimJS m.attrs ≠ [] && !procAttrsFilterFails p (trimJS m.attrs) &&
    (match extractIntegrityHash (trimJS m.attrs) with
     | some g =>
       g ≠ [] && optTruthy (srcRegexFind p.srcNames (trimJS m.attrs)) &&
         (assocLookup (mwOf gh p.t)
             ((srcRegexFind p.srcNames (trimJS m.attrs)).getD [])).getD [] ≠ g
     | none => false)

/-- The single warning the dynamic scan logs for an offending match. -/
def offendingWarn (gh : MiddlewareHashes) (p : Processor)
    (m : ElemMatch) : String :=
  if m.content ≠ [] then
    bothMsg p.t ((srcRegexFind p.srcNames (trimJS m.attrs)).getD [])
  else
    if (assocLookup (mwOf gh p.t)
        ((srcRegexFind p.srcNames (trimJS m.attrs)).getD [])).getD [] = [] then
      notAllowedMsg ((srcRegexFind p.srcNames (trimJS m.attrs)).getD [])
    else
      mismatchMsg ((srcRegexFind p.srcNames (trimJS m.attrs)).getD [])

theorem processDynMatch_offending (sha : Str → Str) (gh : MiddlewareHashes)
    (sri : SRIOptions) (p : Processor) (st : DynState) (m : ElemMatch)
    (h : offendingDynMatch gh p m = true) :
    processDynMatch sha gh sri p st m =
      ⟨st.pageHashes, replaceFirstStr st.updatedContent m.full [],
        st.warnings ++ [offendingWarn gh p m]⟩ := by
  unfold offendingDynMatch at h
  cases hx : extractIntegrityHash (trimJS m.attrs) with
  | none =>
    rw [hx] at h
    simp at h
  | some g =>
    rw [hx] at h
    simp only [Bool.and_eq_true, Bool.not_eq_true', decide_eq_true_eq] at h
    obtain ⟨⟨hne, hfilter⟩, hg⟩ := h
    obtain ⟨⟨hgne, htruthy⟩, hlook⟩ := hg
    simp only [processDynMatch, processDynMatchA]
    rw [if_pos hne]
    simp only [hfilter, Bool.false_eq_true, if_false]
    split
    next hcond =>
      have hcne : m.content ≠ [] := by
        simp only [Bool.and_eq_true, decide_eq_true_eq] at hcond
        exact hcond.1
      simp only [dynRemove, offendingWarn, if_pos hcne]
    next hcond =>
      have hcc : m.content = [] := by
        by_contra hcc
        apply hcond
        simp [hcc, htruthy]
      rw [hx]
      simp only [dynIntegrityBranch, if_pos hgne, htruthy, if_true]
      by_cases hg0 : (assocLookup (mwOf gh p.t)
          ((srcRegexFind p.srcNames (trimJS m.attrs)).getD [])).getD [] = []
      · rw [if_neg (fun hk => hk hg0)]
        simp [offendingWarn, hcc, hg0, dynRemove]
      · rw [if_pos hg0, if_pos hlook]
        simp [offendingWarn, hcc, hg0, dynRemove]

theorem foldl_processDyn_offending (sha : Str → Str) (gh : MiddlewareHashes)
    (sri : SRIOptions) (p : Processor) :
    ∀ (ms : List ElemMatch) (st : DynState),
      (∀ m ∈ ms, offendingDynMatch gh p m = true) →
      ms.foldl (processDynMatch sha gh sri p) st =
        ⟨st.pageHashes,
          ms.foldl (fun c m2 => replaceFirstStr c m2.full [])
            st.updatedContent,
          st.warnings ++ ms.map (offendingWarn gh p)⟩ := by
  intro ms
  induction ms with
  | nil =>
    intro st _
    simp
  | cons m rest ih =>
    intro st hall
    simp only [List.foldl_cons]
    rw [processDynMatch_offending sha gh sri p st m (hall m (by simp))]
    rw [ih _ (fun m2 hm2 => hall m2 (by simp [hm2]))]
    simp [List.map_cons]

/-- C5: in dynamic mode, every scanned element that passes the element filter
(for `<link>` elements, `relStylesheetRegex`) and carries a syntactically
valid integrity attribute and a truthy src/href reference whose locator is
absent from the global hash table or present with a different hash is removed
entirely from the output, with exactly one warning logged for it; the scan is
total (never throws).  The unrestricted claim fails for `<link>` elements
that are not stylesheets (`C5_counterexample_non_stylesheet_link`). -/
theorem C5_updateDynamicPageSriHashes_strips_and_warns (sha : Str → Str)
    (content : Str) (gh : MiddlewareHashes) (sri : SRIOptions)
    (ms1 ms2 ms3 : List ElemMatch)
    (h1 : ∀ m ∈ ms1, offendingDynMatch gh scriptProcessor m = true)
    (h2 : ∀ m ∈ ms2, offendingDynMatch gh styleProcessor m = true)
    (h3 : ∀ m ∈ ms3, offendingDynMatch gh linkProcessor m = true) :
    updateDynamicPageSriHashes sha content gh sri ms1 ms2 ms3 =
      ⟨⟨[], []⟩,
        (ms1 ++ ms2 ++ ms3).foldl (fun c m2 => replaceFirstStr c m2.full [])
          content,
        ms1.map (offendingWarn gh scriptProcessor) ++
          ms2.map (offendingWarn gh styleProcessor) ++
          ms3.map (offendingWarn gh linkProcessor)⟩ := by
  unfold updateDynamicPageSriHashes
  rw [foldl_processDyn_offending sha gh sri scriptProcessor ms1 _ h1]
  rw [foldl_processDyn_offending sha gh sri styleProcessor ms2 _ h2]
  rw [foldl_processDyn_offending sha gh sri linkProcessor ms3 _ h3]
  simp [List.foldl_append]

def sriB64Ex : Str := List.replicate 43 'a'

def sriHashEx : Str := "sha256-".data ++ sriB64Ex ++ ['=']

def scriptMatchEx : ElemMatch :=
  ⟨"<script src=\"https://evil.example/x.js\" integrity=\"".data ++
      sriHashEx ++ "\"></script>".data,
    " src=\"https://evil.example/x.js\" integrity=\"".data ++ sriHashEx ++ ['"'],
    []⟩

def dynDocEx : Str :=
  "<html><head>".data ++ scriptMatchEx.full ++ "</head></html>".data

def ghEmpty : MiddlewareHashes := ⟨[], []⟩

def linkMatchEx : ElemMatch :=
  ⟨"<link rel=\"preload\" href=\"/styles/x.css\" integrity=\"".data ++
      sriHashEx ++ "\"/>".data,
    " rel=\"preload\" href=\"/styles/x.css\" integrity=\"".data ++
      sriHashEx ++ ['"'],
    []⟩

def linkDocEx : Str :=
  "<html><head>".data ++ linkMatchEx.full ++ "</head></html>".data

theorem C5_updateDynamicPageSriHashes_strips_and_warns_witness :
    (∀ m ∈ [scriptMatchEx], offendingDynMatch ghEmpty scriptProcessor m = true) ∧
      updateDynamicPageSriHashes (fun s => s) dynDocEx ghEmpty ⟨none, none⟩
          [scriptMatchEx] [] [] =
        ⟨⟨[], []⟩,
          ([scriptMatchEx] ++ [] ++ []).foldl
            (fun (c : Str) (m2 : ElemMatch) => replaceFirstStr c m2.full [])
            dynDocEx,
          [scriptMatchEx].map (offendingWarn ghEmpty scriptProcessor) ++
            [] ++ []⟩ :=
  ⟨by decide,
    C5_updateDynamicPageSriHashes_strips_and_warns (fun s => s) dynDocEx
      ghEmpty ⟨none, none⟩ [scriptMatchEx] [] []
      (by decide) (by decide) (by decide)⟩

/-- C5 counterexample to the unrestricted claim: a `<link rel="preload">`
element with a syntactically valid integrity attribute and an href absent
from the global hash table is skipped by the stylesheet filter — it is not
removed and no warning is logged. -/
theorem C5_counterexample_non_stylesheet_link :
    (extractIntegrityHash (trimJS linkMatchEx.attrs)).isSome = true ∧
      optTruthy (srcRegexFind linkProcessor.srcNames
        (trimJS linkMatchEx.attrs)) = true ∧
      assocLookup (mwOf ghEmpty linkProcessor.t)
        ((srcRegexFind linkProcessor.srcNames
          (trimJS linkMatchEx.attrs)).getD []) = none ∧
      updateDynamicPageSriHashes (fun s => s) linkDocEx ghEmpty ⟨none, none⟩
          [] [] [linkMatchEx] =
        ⟨⟨[], []⟩, linkDocEx, []⟩ := by decide

/-- `h[`ext${t}Hashes`].add(v)`. -/
def hcAddExt (h : HashesCollection) (t : ElemKind) (v : Str) :
    HashesCollection :=
  match t with
  | .script => { h with extScriptHashes := jsSetAdd h.extScriptHashes v }
  | .style => { h with extStyleHashes := jsSetAdd h.extStyleHashes v }

/-- `h[`inline${t}Hashes`].add(v)`. -/
def hcAddInline (h : HashesCollection) (t : ElemKind) (v : Str) :
    HashesCollection :=
  match t with
  | .script => { h with inlineScriptHashes := jsSetAdd h.inlineScriptHashes v }
  | .style => { h with inlineStyleHashes := jsSetAdd h.inlineStyleHashes v }

/-- `h.perResourceSriHashes[t2]`. -/
def hcPerResource (h : HashesCollection) : ElemKind → List (Str × Str)
  | .script => h.perResourceSriHashes.scripts
  | .style => h.perResourceSriHashes.styles

/-- `h.perResourceSriHashes[t2].set(k, v)`. -/
def hcSetPerResource (h : HashesCollection) (t : ElemKind) (k v : Str) :
    HashesCollection :=
  match t with
  | .script =>
    { h with perResourceSriHashes :=
        ⟨assocSet h.perResourceSriHashes.scripts k v,
          h.perResourceSriHashes.styles⟩ }
  | .style =>
    { h with perResourceSriHashes :=
        ⟨h.perResourceSriHashes.scripts,
          assocSet h.perResourceSriHashes.styles k v⟩ }

def emptyIntegrityStaticMsg (rel : Str) : String :=
  s!"Found empty integrity attribute in \"{String.mk rel}\"."

def unableExternalNoDotMsg (src : Str) : String :=
  s!"Unable to process external resource: \"{String.mk src}\""

/-- The observable state of `updateStaticPageSriHashes`: the mutated hash
collection, the page's hash sets, the updated content and the warnings. -/
structure StaticState where
  hashes : HashesCollection
  pageHashes : PerPageHashes
  updatedContent : Str
  warnings : List String
deriving DecidableEq

def statRemove (st : StaticState) (m : ElemMatch) (w : String) : StaticState :=
  ⟨st.hashes, st.pageHashes, replaceFirstStr st.updatedContent m.full [],
    st.warnings ++ [w]⟩

def statWarnOnly (st : StaticState) (w : String) : StaticState :=
  ⟨st.hashes, st.pageHashes, st.updatedContent, st.warnings ++ [w]⟩

def statReplaceElem (p : Processor) (m : ElemMatch) (attrs hash : Str)
    (setCross : Bool) (st : StaticState) : StaticState :=
  ⟨st.hashes, st.pageHashes,
    replaceFirstStr st.updatedContent m.full
      (procReplacer p hash (if attrs ≠ [] then ' ' :: attrs else [])
        (setCross && !anonymousCrossOriginTest attrs) m.content),
    st.warnings⟩

/-- `!(allowInlineScripts === false && t === 'Script') &&
!(allowInlineStyles === false && t === 'Style')` (state.mjs:275-278). -/
def statInlineAllowed (aScripts aStyles : InlinePolicy) (t : ElemKind) :
    Bool :=
  !(aScripts = InlinePolicy.off && t = ElemKind.script) &&
    !(aStyles = InlinePolicy.off && t = ElemKind.style)

/-- The tail of the static per-match body (state.mjs:274-305): the
`hasContent && !sriHash` inline branch followed by the `if (sriHash)`
replacement. -/
def statFinish (sha : Str → Str) (aScripts aStyles : InlinePolicy)
    (p : Processor) (m : ElemMatch) (attrs : Str) (setCross : Bool)
    (st : StaticState) : Option Str → StaticState
  | none =>
    if p.hasContent then
      if statInlineAllowed aScripts aStyles p.t then
        statReplaceElem p m attrs (sha m.content) setCross
          ⟨hcAddInline st.hashes p.t (sha m.content),
            pageHashesAdd st.pageHashes p.t (sha m.content),
            st.updatedContent, st.warnings⟩
      else statRemove st m (inlineDisabledDotMsg p.t)
    else st
  | some hash => statReplaceElem p m attrs hash setCross st

/-- The static `givenSriHash !== undefined` branch (state.mjs:224-241):
record the hash in the collection and the page sets, then `continue`. -/
def statIntegrityBranch (rel : Str) (p : Processor) (st : StaticState)
    (srcMatch : Option Str) (g : Str) : StaticState :=
  if g ≠ [] then
    if srcMatch.getD [] ≠ [] then
      ⟨hcSetPerResource
          (if srcMatch.isSome then hcAddExt st.hashes p.t g
            else hcAddInline st.hashes p.t g) p.t (srcMatch.getD []) g,
        pageHashesAdd st.pageHashes p.t g, st.updatedContent, st.warnings⟩
    else
      ⟨(if srcMatch.isSome then hcAddExt st.hashes p.t g
          else hcAddInline st.hashes p.t g),
        pageHashesAdd st.pageHashes p.t g, st.updatedContent, st.warnings⟩
  else statWarnOnly st (emptyIntegrityStaticMsg rel)

/-- The static `if (src)` branch (state.mjs:243-271): cached hash, fetched
remote resource (`fetchFn`), or local file (`readFileFn`, modelling
`readFile(resolve(distDir, '.' + src))`); both external calls may fail,
which rejects the whole call. -/
def statSrcBranch (sha : Str → Str) (fetchFn readFileFn : Str → Except String Str)
    (aScripts aStyles : InlinePolicy) (p : Processor) (m : ElemMatch)
    (attrs : Str) (st : StaticState) (src : Str) :
    Except String StaticState :=
  if src ≠ [] then
    if (assocLookup (hcPerResource st.hashes p.t) src).getD [] ≠ [] then
      .ok (statFinish sha aScripts aStyles p m attrs false
        ⟨hcAddExt st.hashes p.t
            ((assocLookup (hcPerResource st.hashes p.t) src).getD []),
          pageHashesAdd st.pageHashes p.t
            ((assocLookup (hcPerResource st.hashes p.t) src).getD []),
          st.updatedContent, st.warnings⟩
        (some ((assocLookup (hcPerResource st.hashes p.t) src).getD [])))
    else
      if urlLikeTest src then
        match fetchFn (if beginsWith "//".data src then "https:".data ++ src
            else src) with
        | .error e => .error e
        | .ok rc =>
          .ok (statFinish sha aScripts aStyles p m attrs true
            ⟨hcSetPerResource (hcAddExt st.hashes p.t (sha rc)) p.t src (sha rc),
              pageHashesAdd st.pageHashes p.t (sha rc),
              st.updatedContent, st.warnings⟩
            (some (sha rc)))
      else if beginsWith ['/'] src then
        match readFileFn src with
        | .error e => .error e
        | .ok rc =>
          .ok (statFinish sha aScripts aStyles p m attrs false
            ⟨hcSetPerResource (hcAddExt st.hashes p.t (sha rc)) p.t src (sha rc),
              pageHashesAdd st.pageHashes p.t (sha rc),
              st.updatedContent, st.warnings⟩
            (some (sha rc)))
      else .ok (statWarnOnly st (unableExternalNoDotMsg src))
  else .ok (statFinish sha aScripts aStyles p m attrs false st none)

/-- One iteration of the static `while ((match = regex.exec(content)))` loop
(state.mjs:186-305), with `attrs` already trimmed. -/
def processStatMatchA (sha : Str → Str)
    (fetchFn readFileFn : Str → Except String Str) (rel : Str)
    (aScripts aStyles : InlinePolicy) (p : Processor) (st : StaticState)
    (m : ElemMatch) (attrs : Str) : Except String StaticState :=
  if attrs ≠ [] then
    if procAttrsFilterFails p attrs then .ok st
    else
      if m.content ≠ [] && (srcRegexFind p.srcNames attrs).getD [] ≠ [] then
        .ok (statRemove st m
          (bothMsg p.t ((srcRegexFind p.srcNames attrs).getD [])))
      else
        match extractIntegrityHash attrs with
        | some g =>
          .ok (statIntegrityBranch rel p st (srcRegexFind p.srcNames attrs) g)
        | none =>
          statSrcBranch sha fetchFn readFileFn aScripts aStyles p m attrs st
            ((srcRegexFind p.srcNames attrs).getD [])
  else .ok (statFinish sha aScripts aStyles p m attrs false st none)

def processStatMatch (sha : Str → Str)
    (fetchFn readFileFn : Str → Except String Str) (rel : Str)
    (aScripts aStyles : InlinePolicy) (p : Processor) (st : StaticState)
    (m : ElemMatch) : Except String StaticState :=
  processStatMatchA sha fetchFn readFileFn rel aScripts aStyles p st m
    (trimJS m.attrs)

def foldlE (f : σ → α → Except ε σ) : σ → List α → Except ε σ
  | st, [] => .ok st
  | st, x :: xs =>
    match f st x with
    | .error e => .error e
    | .ok st2 => foldlE f st2 xs

/-- `updateStaticPageSriHashes` (state.mjs:165): the loop over
`regexProcessors` with the matches of the three element regexes supplied as
`ms1`/`ms2`/`ms3`, SHA-256 as `sha`, and the external fetch/readFile calls as
fallible functions.  The final state's `hashes.perPageSriHashes` receives the
accumulated page hashes under `rel`, as the source's aliased
`h.perPageSriHashes.set(relativeFilepath, pageHashes)` does. -/
def updateStaticPageSriHashes (sha : Str → Str)
    (fetchFn readFileFn : Str → Except String Str) (rel : Str)
    (content : Str) (h : HashesCollection) (aScripts aStyles : InlinePolicy)
    (ms1 ms2 ms3 : List ElemMatch) : Except String StaticState :=
  match foldlE (fun st2 m =>
      processStatMatch sha fetchFn readFileFn rel aScripts aStyles
        scriptProcessor st2 m)
    ⟨h, (assocLookup h.perPageSriHashes rel).getD ⟨[], []⟩, content, []⟩
    ms1 with
  | .error e => .error e
  | .ok st1 =>
    match foldlE (fun st2 m =>
        processStatMatch sha fetchFn readFileFn rel aScripts aStyles
          styleProcessor st2 m) st1 ms2 with
    | .error e => .error e
    | .ok st2 =>
      match foldlE (fun st3 m =>
          processStatMatch sha fetchFn readFileFn rel aScripts aStyles
            linkProcessor st3 m) st2 ms3 with
      | .error e => .error e
      | .ok st3 =>
        .ok
          ⟨{ st3.hashes with
             perPageSriHashes :=
               assocSet st3.hashes.perPageSriHashes rel st3.pageHashes },
            st3.pageHashes, st3.updatedContent, st3.warnings⟩

/-- A static-scan match on which the scan performs no text edit: non-empty
attributes and either the element filter rejects it (a non-stylesheet
`<link>`), or it already carries a syntactically valid (hence non-empty)
integrity attribute and not both content and a truthy src — the shape every
element has in the output of a previous run. -/
def trustedOrSkippedMatch (p : Processor) (m : ElemMatch) : Bool :=
  trimJS m.attrs ≠ [] &&
    (procAttrsFilterFails p (trimJS m.attrs) ||
      (match extractIntegrityHash (trimJS m.attrs) with
       | some g =>
         g ≠ [] &&
           !(m.content ≠ [] &&
             (srcRegexFind p.srcNames (trimJS m.attrs)).getD [] ≠ [])
       | none => false))

theorem processStatMatch_trusted (sha : Str → Str)
    (fetchFn readFileFn : Str → Except String Str) (rel : Str)
    (aScripts aStyles : InlinePolicy) (p : Processor) (st : StaticState)
    (m : ElemMatch) (h : trustedOrSkippedMatch p m = true) :
    ∃ st2,
      processStatMatch sha fetchFn readFileFn rel aScripts aStyles p st m =
          .ok st2 ∧
        st2.updatedContent = st.updatedContent := by
  unfold trustedOrSkippedMatch at h
  simp only [Bool.and_eq_true, Bool.or_eq_true] at h
  obtain ⟨hne, hor⟩ := h
  simp only [decide_eq_true_eq] at hne
  simp only [processStatMatch, processStatMatchA]
  rw [if_pos hne]
  by_cases hpf : procAttrsFilterFails p (trimJS m.attrs) = true
  · rw [if_pos hpf]
    exact ⟨st, rfl, rfl⟩
  · rw [if_neg hpf]
    rcases hor with hpf2 | hint
    · exact absurd hpf2 hpf
    · cases hx : extractIntegrityHash (trimJS m.attrs) with
      | none =>
        rw [hx] at hint
        simp at hint
      | some g =>
        rw [hx] at hint
        simp only [Bool.and_eq_true, Bool.not_eq_true', decide_eq_true_eq]
          at hint
        obtain ⟨hgne, hboth⟩ := hint
        simp only [hboth, Bool.false_eq_true, if_false]
        refine ⟨statIntegrityBranch rel p st
          (srcRegexFind p.srcNames (trimJS m.attrs)) g, rfl, ?_⟩
        unfold statIntegrityBranch
        rw [if_pos hgne]
        split
        · rfl
        · rfl

theorem foldlE_processStat_trusted (sha : Str → Str)
    (fetchFn readFileFn : Str → Except String Str) (rel : Str)
    (aScripts aStyles : InlinePolicy) (p : Processor) :
    ∀ (ms : List ElemMatch) (st : StaticState),
      (∀ m ∈ ms, trustedOrSkippedMatch p m = true) →
      ∃ st2,
        foldlE (fun st3 m =>
            processStatMatch sha fetchFn readFileFn rel aScripts aStyles p
              st3 m) st ms = .ok st2 ∧
          st2.updatedContent = st.updatedContent := by
  intro ms
  induction ms with
  | nil =>
    intro st _
    exact ⟨st, rfl, rfl⟩
  | cons m rest ih =>
    intro st hall
    obtain ⟨stm, hem, hucm⟩ := processStatMatch_trusted sha fetchFn readFileFn
      rel aScripts aStyles p st m (hall m (by simp))
    obtain ⟨st2, he2, huc2⟩ := ih stm (fun m2 hm2 => hall m2 (by simp [hm2]))
    refine ⟨st2, ?_, huc2.trans hucm⟩
    simp only [foldlE, hem, he2]

/-- C8: for every document whose script, style and stylesheet-link matches
all already carry a syntactically valid integrity attribute (and whose
non-stylesheet links are filtered out), with no element having both content
and a truthy src — the shape produced by a previous static run over the same
collection — `updateStaticPageSriHashes` succeeds and returns byte-identical
text: static rewriting is idempotent. -/
theorem C8_updateStaticPageSriHashes_idempotent (sha : Str → Str)
    (fetchFn readFileFn : Str → Except String Str) (rel : Str)
    (content : Str) (h : HashesCollection) (aScripts aStyles : InlinePolicy)
    (ms1 ms2 ms3 : List ElemMatch)
    (h1 : ∀ m ∈ ms1, trustedOrSkippedMatch scriptProcessor m = true)
    (h2 : ∀ m ∈ ms2, trustedOrSkippedMatch styleProcessor m = true)
    (h3 : ∀ m ∈ ms3, trustedOrSkippedMatch linkProcessor m = true) :
    ∃ st,
      updateStaticPageSriHashes sha fetchFn readFileFn rel content h
          aScripts aStyles ms1 ms2 ms3 = .ok st ∧
        st.updatedContent = content := by
  obtain ⟨st1, he1, hu1⟩ := foldlE_processStat_trusted sha fetchFn readFileFn
    rel aScripts aStyles scriptProcessor ms1
    ⟨h, (assocLookup h.perPageSriHashes rel).getD ⟨[], []⟩, content, []⟩ h1
  obtain ⟨st2, he2, hu2⟩ := foldlE_processStat_trusted sha fetchFn readFileFn
    rel aScripts aStyles styleProcessor ms2 st1 h2
  obtain ⟨st3, he3, hu3⟩ := foldlE_processStat_trusted sha fetchFn readFileFn
    rel aScripts aStyles linkProcessor ms3 st2 h3
  refine ⟨⟨{ st3.hashes with
      perPageSriHashes :=
        assocSet st3.hashes.perPageSriHashes rel st3.pageHashes },
    st3.pageHashes, st3.updatedContent, st3.warnings⟩, ?_, ?_⟩
  · simp only [updateStaticPageSriHashes, he1, he2, he3]
  · simpa using hu3.trans (hu2.trans hu1)

def hcEmpty : HashesCollection := ⟨[], [], [], [], [], ⟨[], []⟩⟩

def statTrustedMatchEx : ElemMatch :=
  ⟨"<script integrity=\"".data ++ sriHashEx ++ "\">console.log(1)</script>".data,
    " integrity=\"".data ++ sriHashEx ++ ['"'],
    "console.log(1)".data⟩

def statDocEx : Str :=
  "<html><head>".data ++ statTrustedMatchEx.full ++ "</head></html>".data

theorem C8_updateStaticPageSriHashes_idempotent_witness :
    (∀ m ∈ [statTrustedMatchEx],
        trustedOrSkippedMatch scriptProcessor m = true) ∧
      ∃ st,
        updateStaticPageSriHashes (fun s => s) (fun s => .ok s)
            (fun s => .ok s) "index.html".data statDocEx hcEmpty
            InlinePolicy.all InlinePolicy.all [statTrustedMatchEx] [] [] =
            .ok st ∧
          st.updatedContent = statDocEx :=
  ⟨by decide,
    C8_updateStaticPageSriHashes_idempotent (fun s => s) (fun s => .ok s)
      (fun s => .ok s) "index.html".data statDocEx hcEmpty
      InlinePolicy.all InlinePolicy.all [statTrustedMatchEx] [] []
      (by decide) (by decide) (by decide)⟩

end AstroShield
